import Mathlib

/-!
Verification of the Star Battle solver (`Star_Battle_Solver_English.py`).

The core class `ImprovedStarBattleSolver` is embedded shallowly:

* the immutable puzzle instance (`__init__` data: `n`, `k`, `regions`,
  `unlabeled`, the precomputed `neighbors` table and `region_cells`
  grouping) becomes the structure `Inst` together with the functions
  `neighbors`, `labels` and `region_cells`;
* the mutable solver state (`solution`, `rows_needed`, `cols_needed`,
  `regs_needed`, `forbidden_counts`) becomes the structure `SolverState`,
  passed and returned explicitly.  Python's `defaultdict(int)` tables are
  modelled as total functions defaulting to 0; the key set of
  `regs_needed` is always exactly the set of labels appearing on the
  board, so `is_complete`'s iteration over `regs_needed.values()` is
  modelled as iteration over `labels`;
* Python exceptions (`place_star`'s `RuntimeError`) become `Option`
  results, `none` meaning the exception escapes;
* the wall-clock timeout checked at the top of every `backtrack` call is
  modelled as fuel decremented at every recursive call (fuel 0 behaves
  exactly like an expired deadline: `backtrack` returns `False`);
* the `while changed` loop of `propagate_constraints` is modelled with
  fuel as well; each continuing iteration strictly grows `solution`
  (bounded by the n² board cells), so `n² + 2` passes always reach the
  exit taken by the Python loop;
* the diagnostic counters `nodes_visited` and `propagations` have no
  semantic effect and are omitted.
-/

namespace StarBattle

/-- A board cell, `(row, column)`. -/
abbrev Cell := Nat × Nat

/-- The immutable puzzle instance handed to `ImprovedStarBattleSolver.__init__`:
board size `n`, stars-per-unit `k`, the region matrix (modelled as a function;
only indices below `n` are ever queried) and the sentinel label for unmarked
cells. -/
structure Inst where
  n : Nat
  k : Int
  regions : Nat → Nat → Int
  unlabeled : Int

/-- All board cells in row-major order, the iteration order of every
`for r in range(n): for c in range(n)` loop in the source. -/
def allCells (P : Inst) : List Cell :=
  (List.range P.n).flatMap fun r => (List.range P.n).map fun c => (r, c)

theorem mem_allCells {P : Inst} {p : Cell} :
    p ∈ allCells P ↔ p.1 < P.n ∧ p.2 < P.n := by
  cases p with
  | mk r c =>
    simp only [allCells, List.mem_flatMap, List.mem_map, List.mem_range]
    constructor
    · rintro ⟨a, ha, b, hb, h⟩
      cases h
      exact ⟨ha, hb⟩
    · rintro ⟨hr, hc⟩
      exact ⟨r, hr, c, hc, rfl⟩

theorem nodup_allCells (P : Inst) : (allCells P).Nodup :=
  List.Nodup.product (List.nodup_range _) (List.nodup_range _)

/-- The eight king-move offsets enumerated by the `for dr in (-1,0,1): for dc
in (-1,0,1)` loops in `__init__` (the `(0,0)` pair is skipped). -/
def deltas : List (Int × Int) :=
  [(-1, -1), (-1, 0), (-1, 1), (0, -1), (0, 1), (1, -1), (1, 0), (1, 1)]

/-- The precomputed `self.neighbors[(r, c)]` table: in-bounds king-move
neighbours of a cell. -/
def neighbors (n : Nat) (p : Cell) : List Cell :=
  deltas.filterMap fun d =>
    if 0 ≤ (p.1 : Int) + d.1 ∧ (p.1 : Int) + d.1 < (n : Int) ∧
           0 ≤ (p.2 : Int) + d.2 ∧ (p.2 : Int) + d.2 < (n : Int) then
      some (((p.1 : Int) + d.1).toNat, ((p.2 : Int) + d.2).toNat)
    else none

theorem mem_neighbors {n : Nat} {p q : Cell} :
    q ∈ neighbors n p ↔
      q.1 < n ∧ q.2 < n ∧ q ≠ p ∧
        q.1 ≤ p.1 + 1 ∧ p.1 ≤ q.1 + 1 ∧ q.2 ≤ p.2 + 1 ∧ p.2 ≤ q.2 + 1 := by
  simp only [neighbors, List.mem_filterMap]
  constructor
  · rintro ⟨d, hd, h⟩
    split at h
    · rename_i hcond
      obtain ⟨h1, h2, h3, h4⟩ := hcond
      cases h
      have hd' : (d.1 = -1 ∨ d.1 = 0 ∨ d.1 = 1) ∧ (d.2 = -1 ∨ d.2 = 0 ∨ d.2 = 1) ∧
          ¬(d.1 = 0 ∧ d.2 = 0) := by
        simp only [deltas, List.mem_cons, List.not_mem_nil, or_false] at hd
        rcases hd with h | h | h | h | h | h | h | h <;> (cases h; simp)
      refine ⟨by omega, by omega, ?_, by omega, by omega, by omega, by omega⟩
      intro hq
      have h1' := congrArg Prod.fst hq
      have h2' := congrArg Prod.snd hq
      simp only at h1' h2'
      omega
    · cases h
  · rintro ⟨hq1, hq2, hne, b1, b2, b3, b4⟩
    refine ⟨((q.1 : Int) - p.1, (q.2 : Int) - p.2), ?_, ?_⟩
    · have hne' : ¬((q.1 : Int) - p.1 = 0 ∧ (q.2 : Int) - p.2 = 0) := by
        intro ⟨e1, e2⟩
        apply hne
        have : q.1 = p.1 := by omega
        have : q.2 = p.2 := by omega
        cases q; cases p
        simp_all
      simp only [deltas, List.mem_cons, List.not_mem_nil, or_false, Prod.mk.injEq]
      omega
    · rw [if_pos (by constructor <;> [omega; (constructor <;> [omega; (constructor <;> omega)])])]
      have e1 : ((p.1 : Int) + ((q.1 : Int) - p.1)).toNat = q.1 := by omega
      have e2 : ((p.2 : Int) + ((q.2 : Int) - p.2)).toNat = q.2 := by omega
      rw [e1, e2]

theorem neighbors_symm {n : Nat} {p q : Cell} (hp1 : p.1 < n) (hp2 : p.2 < n)
    (hq1 : q.1 < n) (hq2 : q.2 < n) :
    q ∈ neighbors n p ↔ p ∈ neighbors n q := by
  rw [mem_neighbors, mem_neighbors]
  constructor
  · rintro ⟨h1, h2, h3, h4, h5, h6, h7⟩
    exact ⟨hp1, hp2, fun h => h3 h.symm, h5, h4, h7, h6⟩
  · rintro ⟨_, _, h3, h4, h5, h6, h7⟩
    exact ⟨hq1, hq2, fun h => h3 h.symm, h5, h4, h7, h6⟩

theorem nodup_neighbors (n : Nat) (p : Cell) : (neighbors n p).Nodup := by
  refine List.Nodup.filterMap ?_ (by decide)
  rintro ⟨a1, a2⟩ ⟨b1, b2⟩ ⟨c1, c2⟩ ha hb
  rw [Option.mem_def] at ha hb
  split at ha
  · split at hb
    · rename_i h h'
      injection ha with ha'
      injection hb with hb'
      injection ha' with ha1 ha2
      injection hb' with hb1 hb2
      simp only at h h' ha1 ha2 hb1 hb2
      have e1 : a1 = b1 := by omega
      have e2 : a2 = b2 := by omega
      rw [e1, e2]
    · simp at hb
  · simp at ha

/-- Accumulate the distinct region labels in first-appearance (row-major)
order, skipping `unlabeled` cells — the key order of the Python dict
`self.region_cells` built in `__init__`. -/
def collect_labels (P : Inst) : List Cell → List Int → List Int
  | [], acc => acc
  | p :: rest, acc =>
    if P.regions p.1 p.2 = P.unlabeled ∨ P.regions p.1 p.2 ∈ acc then
      collect_labels P rest acc
    else collect_labels P rest (acc ++ [P.regions p.1 p.2])

/-- The region identifiers present on the board, in `region_cells` key
order. -/
def labels (P : Inst) : List Int := collect_labels P (allCells P) []

theorem mem_collect_labels {P : Inst} {rid : Int} :
    ∀ {l : List Cell} {acc : List Int},
      rid ∈ collect_labels P l acc ↔
        rid ∈ acc ∨ ∃ p ∈ l, P.regions p.1 p.2 = rid ∧ rid ≠ P.unlabeled
  | [], acc => by simp [collect_labels]
  | p :: rest, acc => by
    rw [collect_labels]
    split
    · rename_i h
      rw [mem_collect_labels]
      simp only [List.mem_cons]
      constructor
      · rintro (h' | ⟨q, hq, e, hne⟩)
        · exact Or.inl h'
        · exact Or.inr ⟨q, Or.inr hq, e, hne⟩
      · rintro (h' | ⟨q, (rfl | hq), e, hne⟩)
        · exact Or.inl h'
        · rcases h with h | h
          · exact absurd (h ▸ e) (Ne.symm hne)
          · exact Or.inl (e ▸ h)
        · exact Or.inr ⟨q, hq, e, hne⟩
    · rename_i h
      push_neg at h
      rw [mem_collect_labels]
      constructor
      · rintro (h' | ⟨q, hq, e, hne⟩)
        · rcases List.mem_append.1 h' with h'' | h''
          · exact Or.inl h''
          · rcases List.mem_singleton.1 h'' with rfl
            exact Or.inr ⟨p, List.mem_cons_self p rest, rfl, h.1⟩
        · exact Or.inr ⟨q, List.mem_cons_of_mem _ hq, e, hne⟩
      · rintro (h' | ⟨q, hq, e, hne⟩)
        · exact Or.inl (List.mem_append.2 (Or.inl h'))
        · rcases List.mem_cons.1 hq with rfl | hq'
          · exact Or.inl (List.mem_append.2 (Or.inr (List.mem_singleton.2 e.symm)))
          · exact Or.inr ⟨q, hq', e, hne⟩

theorem mem_labels {P : Inst} {rid : Int} :
    rid ∈ labels P ↔ ∃ p ∈ allCells P, P.regions p.1 p.2 = rid ∧ rid ≠ P.unlabeled := by
  rw [labels, mem_collect_labels]
  simp

theorem labels_ne_unlabeled {P : Inst} {rid : Int} (h : rid ∈ labels P) :
    rid ≠ P.unlabeled :=
  (mem_labels.1 h).choose_spec.2.2

/-- `self.region_cells[rid]`: the member cells of a region, collected in
row-major order. -/
def region_cells (P : Inst) (rid : Int) : List Cell :=
  (allCells P).filter fun p => P.regions p.1 p.2 = rid

theorem mem_region_cells {P : Inst} {rid : Int} {p : Cell} :
    p ∈ region_cells P rid ↔ p ∈ allCells P ∧ P.regions p.1 p.2 = rid := by
  simp [region_cells]

theorem nodup_region_cells (P : Inst) (rid : Int) : (region_cells P rid).Nodup :=
  (nodup_allCells P).filter _

/-- The mutable solver state: the five fields of `ImprovedStarBattleSolver`
that the search mutates.  `regs_needed` and `forbidden_counts` are
`defaultdict(int)` in the source and are modelled as total functions
defaulting to `0`. -/
structure SolverState where
  solution : Finset Cell
  rows_needed : Nat → Int
  cols_needed : Nat → Int
  regs_needed : Int → Int
  forbidden_counts : Cell → Int

/-- The state built by `__init__`: empty placement, every row/column quota
`k`, quota `k` for every region present on the board (other labels are absent
from the dict, i.e. default to 0), all forbidden counts zero. -/
def init_state (P : Inst) : SolverState where
  solution := ∅
  rows_needed := fun _ => P.k
  cols_needed := fun _ => P.k
  regs_needed := fun rid => if rid ∈ labels P then P.k else 0
  forbidden_counts := fun _ => 0

/-- `can_place_star(r, c)`: the availability predicate. -/
def can_place_star (P : Inst) (s : SolverState) (r c : Nat) : Bool :=
  if (r, c) ∈ s.solution then false
  else if 0 < s.forbidden_counts (r, c) then false
  else if s.rows_needed r ≤ 0 ∨ s.cols_needed c ≤ 0 then false
  else if P.regions r c ≠ P.unlabeled ∧ s.regs_needed (P.regions r c) ≤ 0 then false
  else if (neighbors P.n (r, c)).any fun q => decide (q ∈ s.solution) then false
  else true

/-- Increment `forbidden_counts` for every cell of `l` (the neighbour-update
loop shared by `place_star_forced` and `place_star`). -/
def bump_all (f : Cell → Int) (l : List Cell) : Cell → Int :=
  l.foldl (fun g q => Function.update g q (g q + 1)) f

/-- The neighbours whose forbidden count just became 1, in loop order — the
`new_forbidden` list returned by `place_star`. -/
def collect_new_forbidden (f : Cell → Int) (l : List Cell) : List Cell :=
  (l.foldl (fun acc q =>
      (Function.update acc.1 q (acc.1 q + 1),
        if acc.1 q + 1 = 1 then acc.2 ++ [q] else acc.2))
    (f, [])).2

/-- The state mutation shared by `place_star_forced` and `place_star` once
the adjacency guard has passed: add the star, decrement the three quotas
(region only when labelled), bump the neighbours' forbidden counts. -/
def star_placed_state (P : Inst) (s : SolverState) (r c : Nat) : SolverState where
  solution := insert (r, c) s.solution
  rows_needed := Function.update s.rows_needed r (s.rows_needed r - 1)
  cols_needed := Function.update s.cols_needed c (s.cols_needed c - 1)
  regs_needed :=
    if P.regions r c ≠ P.unlabeled then
      Function.update s.regs_needed (P.regions r c) (s.regs_needed (P.regions r c) - 1)
    else s.regs_needed
  forbidden_counts := bump_all s.forbidden_counts (neighbors P.n (r, c))

/-- `place_star_forced(r, c)`: the propagation-side placement.  A cell with a
king-adjacent star is silently skipped (`False`, state untouched). -/
def place_star_forced (P : Inst) (s : SolverState) (r c : Nat) : Bool × SolverState :=
  if (neighbors P.n (r, c)).any (fun q => decide (q ∈ s.solution)) then (false, s)
  else (true, star_placed_state P s r c)

/-- `place_star(r, c)`: the search-side placement.  A king-adjacent star
raises `RuntimeError`, modelled as `none`; otherwise the `new_forbidden`
list and the updated state are returned. -/
def place_star (P : Inst) (s : SolverState) (r c : Nat) :
    Option (List Cell × SolverState) :=
  if (neighbors P.n (r, c)).any (fun q => decide (q ∈ s.solution)) then none
  else some (collect_new_forbidden s.forbidden_counts (neighbors P.n (r, c)),
             star_placed_state P s r c)

/-- The branch-B mutation at the bottom of `backtrack`:
`self.forbidden_counts[(r, c)] += 1` with no star placed. -/
def forbid_mark (s : SolverState) (p : Cell) : SolverState :=
  { s with forbidden_counts := Function.update s.forbidden_counts p (s.forbidden_counts p + 1) }

/-- Undo of the branch-B mutation (`-= 1` followed by popping the key when it
reaches 0; in the total-function model the pop is invisible). -/
def unforbid_mark (s : SolverState) (p : Cell) : SolverState :=
  { s with forbidden_counts := Function.update s.forbidden_counts p (s.forbidden_counts p - 1) }

/-- The snapshot taken in `backtrack` before branching: copies of the five
mutable fields. -/
structure Snapshot where
  rows_needed : Nat → Int
  cols_needed : Nat → Int
  regs_needed : Int → Int
  forbidden_counts : Cell → Int
  solution : Finset Cell

/-- Build the snapshot dict (`list`/`dict`/`set` copies of the live
fields). -/
def take_snapshot (s : SolverState) : Snapshot where
  rows_needed := s.rows_needed
  cols_needed := s.cols_needed
  regs_needed := s.regs_needed
  forbidden_counts := s.forbidden_counts
  solution := s.solution

/-- `_restore_from_snapshot`: overwrite every field of the current state
with the snapshot's copies (the current state `_t` is discarded wholesale). -/
def restore_from_snapshot (snap : Snapshot) (_t : SolverState) : SolverState where
  solution := snap.solution
  rows_needed := snap.rows_needed
  cols_needed := snap.cols_needed
  regs_needed := snap.regs_needed
  forbidden_counts := snap.forbidden_counts

theorem restore_take_snapshot (s t : SolverState) :
    restore_from_snapshot (take_snapshot s) t = s := rfl

/-- A propagation unit: a row, a column, or a labelled region — the three
loops of one `propagate_constraints` pass. -/
inductive ConstraintUnit where
  | row (r : Nat)
  | col (c : Nat)
  | region (rid : Int)
deriving DecidableEq

/-- The cells a unit's `valid_positions` comprehension ranges over, in
source order. -/
def unit_cells (P : Inst) : ConstraintUnit → List Cell
  | .row r => (List.range P.n).map fun c => (r, c)
  | .col c => (List.range P.n).map fun r => (r, c)
  | .region rid => region_cells P rid

/-- The unit's remaining quota (`rows_needed[r]` / `cols_needed[c]` /
`regs_needed[region_id]`). -/
def unit_need (s : SolverState) : ConstraintUnit → Int
  | .row r => s.rows_needed r
  | .col c => s.cols_needed c
  | .region rid => s.regs_needed rid

/-- The unit's `valid_positions` list. -/
def avail_cells (P : Inst) (s : SolverState) (u : ConstraintUnit) : List Cell :=
  (unit_cells P u).filter fun p => can_place_star P s p.1 p.2

/-- The forced-placement loop `for cell in valid_positions: if
place_star_forced(cell): changed = True`. -/
def forced_all (P : Inst) (l : List Cell) (s : SolverState) (ch : Bool) :
    SolverState × Bool :=
  l.foldl (fun acc p =>
      ((place_star_forced P acc.1 p.1 p.2).2,
        acc.2 || (place_star_forced P acc.1 p.1 p.2).1))
    (s, ch)

/-- Outcome of part of a propagation pass: `failed` is the `return False`
taken when a unit has fewer available cells than its need (the state at that
moment is kept, as the Python method leaves `self` mutated); `passed`
carries the updated state and whether anything changed. -/
inductive PassResult where
  | failed (s : SolverState)
  | passed (s : SolverState) (changed : Bool)

/-- The state carried by a `PassResult`. -/
def pass_state : PassResult → SolverState
  | .failed s => s
  | .passed s _ => s

/-- One unit's slice of a propagation pass: skip when the quota is not
positive; otherwise compare `len(valid_positions)` with the need and either
force every valid cell, fail, or do nothing. -/
def process_unit (P : Inst) (s : SolverState) (u : ConstraintUnit) : PassResult :=
  if 0 < unit_need s u then
    if (((avail_cells P s u).length : Int) = unit_need s u) then
      let r := forced_all P (avail_cells P s u) s false
      .passed r.1 r.2
    else if (((avail_cells P s u).length : Int) < unit_need s u) then .failed s
    else .passed s false
  else .passed s false

/-- Run the units of a pass in order, threading the state and or-ing the
`changed` flags, stopping at the first failure. -/
def run_units (P : Inst) : List ConstraintUnit → SolverState → Bool → PassResult
  | [], s, ch => .passed s ch
  | u :: rest, s, ch =>
    match process_unit P s u with
    | .failed s' => .failed s'
    | .passed s' ch' => run_units P rest s' (ch || ch')

/-- The unit order of one pass: all rows, then all columns, then the
labelled regions in `region_cells` key order. -/
def all_units (P : Inst) : List ConstraintUnit :=
  ((List.range P.n).map .row) ++ ((List.range P.n).map .col) ++
    ((labels P).map .region)

/-- Pass budget for the `while changed` loop: every continuing pass places
at least one star on the n² board, so `n² + 2` passes always suffice for the
loop to exit where the Python loop does. -/
def prop_fuel (P : Inst) : Nat := P.n * P.n + 2

/-- `propagate_constraints()`: iterate passes to fixpoint.  `(false, s)`
is Python's `return False` (contradiction), `(true, s)` its `return True`. -/
def propagate_constraints (P : Inst) : Nat → SolverState → Bool × SolverState
  | 0, s => (true, s)
  | fuel + 1, s =>
    match run_units P (all_units P) s false with
    | .failed s' => (false, s')
    | .passed s' ch => if ch then propagate_constraints P fuel s' else (true, s')

/-- The `choices` score of `select_next_cell`: available cells in the row,
plus the column, plus the region (0 when unlabelled). -/
def choices_of (P : Inst) (s : SolverState) (p : Cell) : Nat :=
  ((List.range P.n).filter fun cc => can_place_star P s p.1 cc).length +
    ((List.range P.n).filter fun rr => can_place_star P s rr p.2).length +
    (if P.regions p.1 p.2 ≠ P.unlabeled then
      ((region_cells P (P.regions p.1 p.2)).filter fun q =>
        can_place_star P s q.1 q.2).length
    else 0)

/-- The `constraints` score: available neighbours of the cell. -/
def constraints_of (P : Inst) (s : SolverState) (p : Cell) : Nat :=
  ((neighbors P.n p).filter fun q => can_place_star P s q.1 q.2).length

/-- One step of `select_next_cell`'s scan.  The accumulator carries
`(best_cell, min_choices, max_constraints)`; `none` plays the role of the
initial `min_choices = inf` (a first candidate always wins). -/
def select_step (P : Inst) (s : SolverState) (acc : Option (Cell × Nat × Nat))
    (p : Cell) : Option (Cell × Nat × Nat) :=
  if can_place_star P s p.1 p.2 then
    match acc with
    | none => some (p, choices_of P s p, constraints_of P s p)
    | some t =>
      if choices_of P s p < t.2.1 ∨
          (choices_of P s p = t.2.1 ∧ t.2.2 < constraints_of P s p) then
        some (p, choices_of P s p, constraints_of P s p)
      else some t
  else acc

/-- `select_next_cell()`: scan all cells in row-major order keeping the
most-constrained candidate. -/
def select_next_cell (P : Inst) (s : SolverState) : Option Cell :=
  ((allCells P).foldl (select_step P s) none).map (·.1)

/-- `is_complete()`: all row, column and region quotas are zero.  The values
of the `regs_needed` dict are exactly the entries at the labels present on
the board. -/
def is_complete (P : Inst) (s : SolverState) : Bool :=
  ((List.range P.n).all fun r => s.rows_needed r = 0) &&
    ((List.range P.n).all fun c => s.cols_needed c = 0) &&
    ((labels P).all fun rid => s.regs_needed rid = 0)

/-- `is_impossible()`: some unit has fewer available cells than its
remaining need. -/
def is_impossible (P : Inst) (s : SolverState) : Bool :=
  ((List.range P.n).any fun r =>
      (((List.range P.n).filter fun c => can_place_star P s r c).length : Int) <
        s.rows_needed r) ||
    ((List.range P.n).any fun c =>
      (((List.range P.n).filter fun r => can_place_star P s r c).length : Int) <
        s.cols_needed c) ||
    ((labels P).any fun rid =>
      (((region_cells P rid).filter fun p => can_place_star P s p.1 p.2).length : Int) <
        s.regs_needed rid)

/-- `validate_no_adjacent()` reduced to its boolean verdict: no placed star
has a placed neighbour. -/
def validate_no_adjacent (P : Inst) (s : SolverState) : Bool :=
  decide (∀ p ∈ s.solution, ∀ q ∈ neighbors P.n p, q ∉ s.solution)

/-- `backtrack(start_time, timeout)`.  Fuel models the wall-clock deadline:
fuel 0 is the `time.time() - start_time > timeout` early `return False`.
`none` is an escaping `RuntimeError` from `place_star`.  On branch-B failure
the source decrements/pops the forbid mark and then restores the snapshot,
which overwrites the whole state; both steps are kept. -/
def backtrack (P : Inst) : Nat → SolverState → Option (Bool × SolverState)
  | 0, s => some (false, s)
  | fuel + 1, s =>
    match propagate_constraints P (prop_fuel P) s with
    | (false, s1) => some (false, s1)
    | (true, s1) =>
      if is_complete P s1 then some (true, s1)
      else if is_impossible P s1 then some (false, s1)
      else
        match select_next_cell P s1 with
        | none => some (false, s1)
        | some p =>
          match place_star P s1 p.1 p.2 with
          | none => none
          | some nf =>
            match backtrack P fuel nf.2 with
            | none => none
            | some r1 =>
              if r1.1 then some r1
              else
                match backtrack P fuel
                    (forbid_mark (restore_from_snapshot (take_snapshot s1) r1.2) p) with
                | none => none
                | some r2 =>
                  if r2.1 then some r2
                  else some (false,
                      restore_from_snapshot (take_snapshot s1) (unforbid_mark r2.2 p))

/-- Result of `ImprovedStarBattleSolver.solve`: a solution set, `None`, or
an escaping exception. -/
inductive SolveResult where
  | sol (placed : Finset Cell)
  | noSolution
  | crash
deriving DecidableEq

/-- `solve(timeout)`: initial propagation, completeness/impossibility
checks, then the backtracking search; every claimed solution passes through
`validate_no_adjacent` first. -/
def solve (P : Inst) (fuel : Nat) : SolveResult :=
  match propagate_constraints P (prop_fuel P) (init_state P) with
  | (false, _) => .noSolution
  | (true, s1) =>
    if is_complete P s1 then
      if validate_no_adjacent P s1 then .sol s1.solution else .noSolution
    else if is_impossible P s1 then .noSolution
    else
      match backtrack P fuel s1 with
      | none => .crash
      | some r =>
        if r.1 then
          if validate_no_adjacent P r.2 then .sol r.2.solution else .noSolution
        else .noSolution

/-- Outcome of `StarBattleApp.solve` (the GUI-layer method), reduced to its
control flow: the two `messagebox.showerror` early returns, the
"No feasible solution found!" info box, a displayed solution, and an
escaping exception from the solver. -/
inductive AppOutcome where
  | errNoRegions
  | errRegionTooSmall (rid : Int) (size : Nat)
  | resultNoSolution
  | resultSolved (placed : Finset Cell)
  | appCrash
deriving DecidableEq

/-- The first region (in `region_sizes.items()` order, i.e. first-appearance
order) whose size is below `k` — the loop at lines 155-158 of the source. -/
def first_small_region (P : Inst) : Option (Int × Nat) :=
  (labels P).findSome? fun rid =>
    if ((region_cells P rid).length : Int) < P.k then
      some (rid, (region_cells P rid).length)
    else none

/-- `StarBattleApp.solve`: reject when nothing is marked
(`np.max(self.regions) == -1`, i.e. every cell unmarked, since the GUI only
writes labels ≥ -1), then reject the first too-small region, then run the
core solver; an empty or `None` result is "No feasible solution found!".
The app always builds the solver with `unlabeled = -1`. -/
def app_solve (P : Inst) (fuel : Nat) : AppOutcome :=
  if (allCells P).all (fun p => P.regions p.1 p.2 = -1) then .errNoRegions
  else
    match first_small_region P with
    | some rs => .errRegionTooSmall rs.1 rs.2
    | none =>
      match solve P fuel with
      | .sol placed => if placed = ∅ then .resultNoSolution else .resultSolved placed
      | .noSolution => .resultNoSolution
      | .crash => .appCrash

/-- Cell is inside the n×n board. -/
def in_board (P : Inst) (p : Cell) : Prop := p.1 < P.n ∧ p.2 < P.n

instance (P : Inst) (p : Cell) : Decidable (in_board P p) :=
  inferInstanceAs (Decidable (_ ∧ _))

/-- Stars currently placed in row `r`. -/
def stars_in_row (s : SolverState) (r : Nat) : Nat :=
  (s.solution.filter fun p => p.1 = r).card

/-- Stars currently placed in column `c`. -/
def stars_in_col (s : SolverState) (c : Nat) : Nat :=
  (s.solution.filter fun p => p.2 = c).card

/-- Stars currently placed in region `rid`. -/
def stars_in_region (P : Inst) (s : SolverState) (rid : Int) : Nat :=
  (s.solution.filter fun p => P.regions p.1 p.2 = rid).card

/-- The quota bookkeeping invariant: all stars on the board, and for every
row, column and labelled region, `needed + already_placed = k`. -/
def QuotaInv (P : Inst) (s : SolverState) : Prop :=
  (∀ p ∈ s.solution, in_board P p) ∧
    (∀ r < P.n, s.rows_needed r + (stars_in_row s r : Int) = P.k) ∧
    (∀ c < P.n, s.cols_needed c + (stars_in_col s c : Int) = P.k) ∧
    (∀ rid ∈ labels P, s.regs_needed rid + (stars_in_region P s rid : Int) = P.k)

instance (P : Inst) (s : SolverState) : Decidable (QuotaInv P s) := by
  unfold QuotaInv
  infer_instance

/-- Every tracked quota entry is nonnegative. -/
def NonNegQuotas (P : Inst) (s : SolverState) : Prop :=
  (∀ r < P.n, 0 ≤ s.rows_needed r) ∧ (∀ c < P.n, 0 ≤ s.cols_needed c) ∧
    (∀ rid ∈ labels P, 0 ≤ s.regs_needed rid)

instance (P : Inst) (s : SolverState) : Decidable (NonNegQuotas P s) := by
  unfold NonNegQuotas
  infer_instance

/-- Number of placed stars among a cell's neighbours. -/
def star_nbr_count (P : Inst) (s : SolverState) (p : Cell) : Nat :=
  ((neighbors P.n p).filter fun q => decide (q ∈ s.solution)).length

/-- `forbidden_count[cell]` equals the number of star-holding neighbours of
`cell`, for every board cell. -/
def ForbiddenInv (P : Inst) (s : SolverState) : Prop :=
  ∀ r < P.n, ∀ c < P.n,
    s.forbidden_counts (r, c) = (star_nbr_count P s (r, c) : Int)

instance (P : Inst) (s : SolverState) : Decidable (ForbiddenInv P s) := by
  unfold ForbiddenInv
  infer_instance

/-- `forbidden_count[cell]` equals starred neighbours plus the currently
active branch-B marks `m cell`. -/
def MarkedForbiddenInv (P : Inst) (s : SolverState) (m : Cell → Int) : Prop :=
  ∀ r < P.n, ∀ c < P.n,
    s.forbidden_counts (r, c) = (star_nbr_count P s (r, c) : Int) + m (r, c)

instance (P : Inst) (s : SolverState) (m : Cell → Int) :
    Decidable (MarkedForbiddenInv P s m) := by
  unfold MarkedForbiddenInv
  infer_instance

theorem can_place_star_iff {P : Inst} {s : SolverState} {r c : Nat} :
    can_place_star P s r c = true ↔
      (r, c) ∉ s.solution ∧ s.forbidden_counts (r, c) ≤ 0 ∧
        0 < s.rows_needed r ∧ 0 < s.cols_needed c ∧
        (P.regions r c = P.unlabeled ∨ 0 < s.regs_needed (P.regions r c)) ∧
        ∀ q ∈ neighbors P.n (r, c), q ∉ s.solution := by
  unfold can_place_star
  split_ifs with h1 h2 h3 h4 h5
  · simp only [false_iff]
    intro h
    exact h.1 h1
  · simp only [false_iff]
    intro h
    omega
  · simp only [false_iff]
    intro h
    omega
  · simp only [false_iff]
    intro h
    rcases h.2.2.2.2.1 with h' | h'
    · exact h4.1 h'
    · omega
  · simp only [false_iff]
    intro h
    rw [List.any_eq_true] at h5
    obtain ⟨q, hq, hq'⟩ := h5
    exact h.2.2.2.2.2 q hq (of_decide_eq_true hq')
  · simp only [true_iff]
    refine ⟨h1, by omega, by omega, by omega, ?_, ?_⟩
    · by_cases he : P.regions r c = P.unlabeled
      · exact Or.inl he
      · exact Or.inr (by push_neg at h4; have := h4 he; omega)
    · intro q hq hq'
      exact h5 (List.any_eq_true.2 ⟨q, hq, decide_eq_true hq'⟩)

theorem card_filter_insert {S : Finset Cell} {p : Cell} (hp : p ∉ S)
    (q : Cell → Prop) [DecidablePred q] :
    ((insert p S).filter q).card =
      (S.filter q).card + (if q p then 1 else 0) := by
  rw [Finset.filter_insert]
  split_ifs with h
  · rw [Finset.card_insert_of_not_mem fun hc => hp (Finset.mem_filter.1 hc).1]
  · simp

/-- A unit of `all_units` is well formed: its index is on the board. -/
def unit_wf (P : Inst) : ConstraintUnit → Prop
  | .row r => r < P.n
  | .col c => c < P.n
  | .region _ => True

theorem unit_cells_in_board {P : Inst} {u : ConstraintUnit} (hu : unit_wf P u) :
    ∀ p ∈ unit_cells P u, in_board P p := by
  intro p hp
  cases u with
  | row r =>
    simp only [unit_cells, List.mem_map, List.mem_range] at hp
    obtain ⟨c, hc, rfl⟩ := hp
    exact ⟨hu, hc⟩
  | col c =>
    simp only [unit_cells, List.mem_map, List.mem_range] at hp
    obtain ⟨r, hr, rfl⟩ := hp
    exact ⟨hr, hu⟩
  | region rid =>
    have := (mem_region_cells.1 hp).1
    exact mem_allCells.1 this

theorem nodup_unit_cells (P : Inst) (u : ConstraintUnit) :
    (unit_cells P u).Nodup := by
  cases u with
  | row r =>
    exact (List.nodup_range _).map fun a b h => by
      injection h
  | col c =>
    exact (List.nodup_range _).map fun a b h => by
      injection h with h1 _
  | region rid => exact nodup_region_cells P rid

theorem mem_avail_cells {P : Inst} {s : SolverState} {u : ConstraintUnit} {p : Cell} :
    p ∈ avail_cells P s u ↔ p ∈ unit_cells P u ∧ can_place_star P s p.1 p.2 = true := by
  simp [avail_cells]

theorem nodup_avail_cells (P : Inst) (s : SolverState) (u : ConstraintUnit) :
    (avail_cells P s u).Nodup :=
  (nodup_unit_cells P u).filter _

theorem stars_in_row_star_placed {P : Inst} {s : SolverState} {r c : Nat}
    (hp : (r, c) ∉ s.solution) (i : Nat) :
    stars_in_row (star_placed_state P s r c) i =
      stars_in_row s i + (if r = i then 1 else 0) := by
  unfold stars_in_row star_placed_state
  exact card_filter_insert hp _

theorem stars_in_col_star_placed {P : Inst} {s : SolverState} {r c : Nat}
    (hp : (r, c) ∉ s.solution) (i : Nat) :
    stars_in_col (star_placed_state P s r c) i =
      stars_in_col s i + (if c = i then 1 else 0) := by
  unfold stars_in_col star_placed_state
  exact card_filter_insert hp _

theorem stars_in_region_star_placed {P : Inst} {s : SolverState} {r c : Nat}
    (hp : (r, c) ∉ s.solution) (rid : Int) :
    stars_in_region P (star_placed_state P s r c) rid =
      stars_in_region P s rid + (if P.regions r c = rid then 1 else 0) := by
  unfold stars_in_region star_placed_state
  exact card_filter_insert hp _

theorem quotaInv_star_placed {P : Inst} {s : SolverState} {r c : Nat}
    (h : QuotaInv P s) (hp : (r, c) ∉ s.solution) (hr : r < P.n) (hc : c < P.n) :
    QuotaInv P (star_placed_state P s r c) := by
  obtain ⟨hb, hrow, hcol, hreg⟩ := h
  refine ⟨?_, ?_, ?_, ?_⟩
  · intro p hps
    rcases Finset.mem_insert.1 hps with rfl | hps'
    · exact ⟨hr, hc⟩
    · exact hb p hps'
  · intro i hi
    rw [stars_in_row_star_placed hp i]
    show Function.update s.rows_needed r (s.rows_needed r - 1) i + _ = _
    rw [Function.update_apply]
    have hbase := hrow i hi
    split_ifs with e1 e2 e3
    · subst e1
      push_cast
      omega
    · exact absurd e1.symm e2
    · exact absurd e3.symm e1
    · push_cast
      omega
  · intro i hi
    rw [stars_in_col_star_placed hp i]
    show Function.update s.cols_needed c (s.cols_needed c - 1) i + _ = _
    rw [Function.update_apply]
    have hbase := hcol i hi
    split_ifs with e1 e2 e3
    · subst e1
      push_cast
      omega
    · exact absurd e1.symm e2
    · exact absurd e3.symm e1
    · push_cast
      omega
  · intro rid hrid
    rw [stars_in_region_star_placed hp rid]
    have hbase := hreg rid hrid
    show (if P.regions r c ≠ P.unlabeled then
        Function.update s.regs_needed (P.regions r c)
          (s.regs_needed (P.regions r c) - 1) else s.regs_needed) rid + _ = _
    split_ifs with e1 e2 e3
    · rw [Function.update_apply]
      rw [if_pos e2.symm, e2]
      push_cast
      omega
    · rw [Function.update_apply, if_neg fun h' => e2 h'.symm]
      push_cast
      omega
    · have he : P.regions r c = P.unlabeled := not_not.1 e1
      exact absurd (he.symm.trans e3).symm (labels_ne_unlabeled hrid)
    · push_cast
      omega

theorem forced_all_nil (P : Inst) (s : SolverState) (ch : Bool) :
    forced_all P [] s ch = (s, ch) := rfl

theorem forced_all_cons (P : Inst) (p : Cell) (l : List Cell) (s : SolverState)
    (ch : Bool) :
    forced_all P (p :: l) s ch =
      forced_all P l (place_star_forced P s p.1 p.2).2
        (ch || (place_star_forced P s p.1 p.2).1) := rfl

theorem place_star_forced_solution_mono (P : Inst) (s : SolverState) (r c : Nat) :
    s.solution ⊆ (place_star_forced P s r c).2.solution := by
  unfold place_star_forced
  split_ifs
  · exact Finset.Subset.refl _
  · exact Finset.subset_insert _ _

theorem forced_all_solution_mono (P : Inst) (l : List Cell) :
    ∀ (s : SolverState) (ch : Bool),
      s.solution ⊆ (forced_all P l s ch).1.solution := by
  induction l with
  | nil =>
    intro s ch
    exact Finset.Subset.refl _
  | cons p l ih =>
    intro s ch
    rw [forced_all_cons]
    exact (place_star_forced_solution_mono P s p.1 p.2).trans (ih _ _)

theorem forced_all_quota (P : Inst) (l : List Cell) :
    ∀ (s : SolverState) (ch : Bool), QuotaInv P s →
      (∀ p ∈ l, in_board P p ∧ p ∉ s.solution) → l.Nodup →
      QuotaInv P (forced_all P l s ch).1 := by
  induction l with
  | nil =>
    intro s ch h _ _
    exact h
  | cons p l ih =>
    intro s ch h hpre hnd
    rw [forced_all_cons]
    obtain ⟨⟨hp1, hp2⟩, hp3⟩ := hpre p (List.mem_cons_self p l)
    have hcase : (place_star_forced P s p.1 p.2).2 = s ∨
        (place_star_forced P s p.1 p.2).2 = star_placed_state P s p.1 p.2 := by
      unfold place_star_forced
      split_ifs
      · exact Or.inl rfl
      · exact Or.inr rfl
    rcases hcase with he | he <;> rw [he]
    · exact ih s _ h (fun q hq => hpre q (List.mem_cons_of_mem _ hq)) hnd.of_cons
    · refine ih _ _ (quotaInv_star_placed h hp3 hp1 hp2) ?_ hnd.of_cons
      intro q hq
      refine ⟨(hpre q (List.mem_cons_of_mem _ hq)).1, ?_⟩
      intro hmem
      rcases Finset.mem_insert.1 hmem with rfl | hmem'
      · exact (List.nodup_cons.1 hnd).1 hq
      · exact (hpre q (List.mem_cons_of_mem _ hq)).2 hmem'

theorem process_unit_quota {P : Inst} {s : SolverState} {u : ConstraintUnit}
    (h : QuotaInv P s) (hu : unit_wf P u) :
    QuotaInv P (pass_state (process_unit P s u)) := by
  unfold process_unit
  split_ifs with h1 h2 h3
  · show QuotaInv P (forced_all P (avail_cells P s u) s false).1
    refine forced_all_quota P _ s false h ?_ (nodup_avail_cells P s u)
    intro p hp
    obtain ⟨hpu, hpc⟩ := mem_avail_cells.1 hp
    exact ⟨unit_cells_in_board hu p hpu, (can_place_star_iff.1 hpc).1⟩
  · exact h
  · exact h
  · exact h

theorem run_units_quota {P : Inst} :
    ∀ (l : List ConstraintUnit) (s : SolverState) (ch : Bool),
      QuotaInv P s → (∀ u ∈ l, unit_wf P u) →
      QuotaInv P (pass_state (run_units P l s ch)) := by
  intro l
  induction l with
  | nil =>
    intro s ch h _
    exact h
  | cons u l ih =>
    intro s ch h hwf
    rw [run_units]
    have hq := process_unit_quota h (hwf u (List.mem_cons_self u l))
    cases hpu : process_unit P s u with
    | failed s' =>
      rw [hpu] at hq
      exact hq
    | passed s' ch' =>
      rw [hpu] at hq
      exact ih s' _ hq fun v hv => hwf v (List.mem_cons_of_mem _ hv)

theorem all_units_wf (P : Inst) : ∀ u ∈ all_units P, unit_wf P u := by
  intro u hu
  rcases List.mem_append.1 hu with h | h
  · rcases List.mem_append.1 h with h' | h'
    · obtain ⟨r, hr, rfl⟩ := List.mem_map.1 h'
      exact List.mem_range.1 hr
    · obtain ⟨c, hc, rfl⟩ := List.mem_map.1 h'
      exact List.mem_range.1 hc
  · obtain ⟨rid, _, rfl⟩ := List.mem_map.1 h
    trivial

theorem propagate_quota {P : Inst} :
    ∀ (fuel : Nat) (s : SolverState), QuotaInv P s →
      QuotaInv P (propagate_constraints P fuel s).2 := by
  intro fuel
  induction fuel with
  | zero =>
    intro s h
    exact h
  | succ fuel ih =>
    intro s h
    rw [propagate_constraints]
    have hq := run_units_quota (all_units P) s false h (all_units_wf P)
    cases hru : run_units P (all_units P) s false with
    | failed s' =>
      rw [hru] at hq
      exact hq
    | passed s' ch =>
      rw [hru] at hq
      by_cases hch : ch = true
      · rw [hch]
        simp only [if_true]
        exact ih s' hq
      · rw [Bool.not_eq_true] at hch
        rw [hch]
        simp only [Bool.false_eq_true, if_false]
        exact hq

theorem quotaInv_init (P : Inst) : QuotaInv P (init_state P) := by
  refine ⟨?_, ?_, ?_, ?_⟩
  · intro p hp
    simp [init_state] at hp
  · intro r _
    simp [init_state, stars_in_row]
  · intro c _
    simp [init_state, stars_in_col]
  · intro rid hrid
    simp [init_state, stars_in_region, if_pos hrid]

/-- Loop invariant of `select_next_cell`'s scan over a prefix `seen` of the
board: `none` means no candidate was seen, `some (b, mc, mx)` means `b` is a
seen candidate with scores `(mc, mx)` that is lexicographically best
(minimal `choices`, then maximal `constraints`) among the seen candidates. -/
def sel_inv (P : Inst) (s : SolverState) (seen : List Cell)
    (acc : Option (Cell × Nat × Nat)) : Prop :=
  (acc = none → ∀ p ∈ seen, can_place_star P s p.1 p.2 = false) ∧
    ∀ b mc mx, acc = some (b, mc, mx) →
      can_place_star P s b.1 b.2 = true ∧ b ∈ seen ∧
        mc = choices_of P s b ∧ mx = constraints_of P s b ∧
        ∀ q ∈ seen, can_place_star P s q.1 q.2 = true →
          mc ≤ choices_of P s q ∧
            (choices_of P s q = mc → constraints_of P s q ≤ mx)

theorem sel_inv_step {P : Inst} {s : SolverState} {seen : List Cell}
    {acc : Option (Cell × Nat × Nat)} (h : sel_inv P s seen acc) (p : Cell) :
    sel_inv P s (seen ++ [p]) (select_step P s acc p) := by
  obtain ⟨hnone, hsome⟩ := h
  unfold select_step
  by_cases hcp : can_place_star P s p.1 p.2 = true
  · rw [if_pos hcp]
    cases acc with
    | none =>
      show sel_inv P s (seen ++ [p]) (some (p, choices_of P s p, constraints_of P s p))
      refine ⟨fun h' => absurd h' (by simp), ?_⟩
      intro b mc mx heq
      injection heq with heq
      injection heq with h3 h4
      injection h4 with h5 h6
      subst h3
      subst h5
      subst h6
      refine ⟨hcp, List.mem_append.2 (Or.inr (List.mem_singleton.2 rfl)), rfl, rfl, ?_⟩
      intro q hq hcq
      rcases List.mem_append.1 hq with hq' | hq'
      · exact absurd hcq (by rw [hnone rfl q hq']; simp)
      · rcases List.mem_singleton.1 hq' with rfl
        exact ⟨le_refl _, fun _ => le_refl _⟩
    | some t =>
      obtain ⟨hb0, hb0mem, hmc0, hmx0, hopt⟩ := hsome t.1 t.2.1 t.2.2 rfl
      show sel_inv P s (seen ++ [p])
        (if choices_of P s p < t.2.1 ∨
            (choices_of P s p = t.2.1 ∧ t.2.2 < constraints_of P s p) then
          some (p, choices_of P s p, constraints_of P s p)
        else some t)
      split_ifs with himp
      · refine ⟨fun h' => absurd h' (by simp), ?_⟩
        intro b mc mx heq
        injection heq with heq
        injection heq with h3 h4
        injection h4 with h5 h6
        subst h3
        subst h5
        subst h6
        refine ⟨hcp, List.mem_append.2 (Or.inr (List.mem_singleton.2 rfl)), rfl, rfl, ?_⟩
        intro q hq hcq
        rcases List.mem_append.1 hq with hq' | hq'
        · have hq0 := hopt q hq' hcq
          rcases himp with hlt | ⟨heq', hgt⟩
          · refine ⟨by omega, fun he => by omega⟩
          · refine ⟨by omega, fun he => ?_⟩
            have := hq0.2 (by omega)
            omega
        · rcases List.mem_singleton.1 hq' with rfl
          exact ⟨le_refl _, fun _ => le_refl _⟩
      · refine ⟨fun h' => absurd h' (by simp), ?_⟩
        intro b mc mx heq
        injection heq with heq
        subst heq
        push_neg at himp
        refine ⟨hb0, List.mem_append.2 (Or.inl hb0mem), hmc0, hmx0, ?_⟩
        intro q hq hcq
        rcases List.mem_append.1 hq with hq' | hq'
        · exact hopt q hq' hcq
        · rcases List.mem_singleton.1 hq' with rfl
          exact ⟨himp.1, fun he => himp.2 he⟩
  · rw [if_neg hcp]
    refine ⟨?_, ?_⟩
    · intro h' q hq
      rcases List.mem_append.1 hq with hq' | hq'
      · exact hnone h' q hq'
      · rcases List.mem_singleton.1 hq' with rfl
        exact Bool.not_eq_true _ ▸ hcp
    · intro b mc mx heq
      obtain ⟨hb, hbmem, hmc, hmx, hopt⟩ := hsome b mc mx heq
      refine ⟨hb, List.mem_append.2 (Or.inl hbmem), hmc, hmx, ?_⟩
      intro q hq hcq
      rcases List.mem_append.1 hq with hq' | hq'
      · exact hopt q hq' hcq
      · rcases List.mem_singleton.1 hq' with rfl
        exact absurd hcq hcp

theorem sel_inv_foldl {P : Inst} {s : SolverState} :
    ∀ (l : List Cell) (seen : List Cell) (acc : Option (Cell × Nat × Nat)),
      sel_inv P s seen acc →
      sel_inv P s (seen ++ l) (l.foldl (select_step P s) acc) := by
  intro l
  induction l with
  | nil =>
    intro seen acc h
    rw [List.append_nil]
    exact h
  | cons p l ih =>
    intro seen acc h
    have h1 := sel_inv_step h p
    have h2 := ih (seen ++ [p]) (select_step P s acc p) h1
    rw [List.append_assoc] at h2
    exact h2

theorem sel_inv_allCells (P : Inst) (s : SolverState) :
    sel_inv P s (allCells P) ((allCells P).foldl (select_step P s) none) := by
  have h0 : sel_inv P s [] none := by
    refine ⟨fun _ p hp => absurd hp (List.not_mem_nil p), ?_⟩
    intro b mc mx heq
    cases heq
  have := sel_inv_foldl (allCells P) [] none h0
  rw [List.nil_append] at this
  exact this

theorem select_next_cell_some {P : Inst} {s : SolverState} {p : Cell}
    (h : select_next_cell P s = some p) :
    can_place_star P s p.1 p.2 = true ∧ p ∈ allCells P ∧
      ∀ q ∈ allCells P, can_place_star P s q.1 q.2 = true →
        choices_of P s p ≤ choices_of P s q ∧
          (choices_of P s q = choices_of P s p →
            constraints_of P s q ≤ constraints_of P s p) := by
  unfold select_next_cell at h
  obtain ⟨⟨b, mc, mx⟩, hfold, rfl⟩ := Option.map_eq_some'.1 h
  obtain ⟨hb, hbmem, hmc, hmx, hopt⟩ := (sel_inv_allCells P s).2 b mc mx hfold
  subst hmc hmx
  exact ⟨hb, hbmem, hopt⟩

theorem select_next_cell_none {P : Inst} {s : SolverState} :
    select_next_cell P s = none ↔
      ∀ p ∈ allCells P, can_place_star P s p.1 p.2 = false := by
  constructor
  · intro h
    unfold select_next_cell at h
    rw [Option.map_eq_none'] at h
    exact (sel_inv_allCells P s).1 h
  · intro h
    cases hsel : select_next_cell P s with
    | none => rfl
    | some p =>
      obtain ⟨hp, hpmem, _⟩ := select_next_cell_some hsel
      rw [h p hpmem] at hp
      cases hp

theorem place_star_of_no_adjacent {P : Inst} {s : SolverState} {r c : Nat}
    (h : ∀ q ∈ neighbors P.n (r, c), q ∉ s.solution) :
    place_star P s r c =
      some (collect_new_forbidden s.forbidden_counts (neighbors P.n (r, c)),
            star_placed_state P s r c) := by
  unfold place_star
  rw [if_neg]
  intro hany
  rw [List.any_eq_true] at hany
  obtain ⟨q, hq, hq'⟩ := hany
  exact h q hq (of_decide_eq_true hq')

theorem quotaInv_forbid_mark {P : Inst} {s : SolverState} {p : Cell}
    (h : QuotaInv P s) : QuotaInv P (forbid_mark s p) := h

theorem quotaInv_unforbid_mark {P : Inst} {s : SolverState} {p : Cell}
    (h : QuotaInv P s) : QuotaInv P (unforbid_mark s p) := h

theorem backtrack_quota {P : Inst} :
    ∀ (fuel : Nat) (s : SolverState) (res : Bool × SolverState),
      QuotaInv P s → backtrack P fuel s = some res → QuotaInv P res.2 := by
  intro fuel
  induction fuel with
  | zero =>
    intro s res h hb
    rw [backtrack] at hb
    injection hb with hb
    rw [← hb]
    exact h
  | succ fuel ih =>
    intro s res h hb
    rw [backtrack] at hb
    split at hb
    · rename_i s1 hpr
      injection hb with hb
      rw [← hb]
      have h1 := propagate_quota (P := P) (prop_fuel P) s h
      rw [hpr] at h1
      exact h1
    · rename_i s1 hpr
      have h1 : QuotaInv P s1 := by
        have := propagate_quota (P := P) (prop_fuel P) s h
        rw [hpr] at this
        exact this
      split at hb
      · injection hb with hb
        rw [← hb]
        exact h1
      · split at hb
        · injection hb with hb
          rw [← hb]
          exact h1
        · split at hb
          · injection hb with hb
            rw [← hb]
            exact h1
          · rename_i p hsel
            split at hb
            · cases hb
            · rename_i nf hps
              obtain ⟨hcps, hpmem, _⟩ := select_next_cell_some hsel
              obtain ⟨hp1, _, _, _, _, hnadj⟩ := can_place_star_iff.1 hcps
              rw [place_star_of_no_adjacent hnadj] at hps
              injection hps with hps
              have hnf2 : nf.2 = star_placed_state P s1 p.1 p.2 := by
                rw [← hps]
              have hsp : QuotaInv P nf.2 := by
                rw [hnf2]
                exact quotaInv_star_placed h1 hp1 (mem_allCells.1 hpmem).1
                  (mem_allCells.1 hpmem).2
              split at hb
              · cases hb
              · rename_i r1 hb1
                have hq1 : QuotaInv P r1.2 := ih _ r1 hsp hb1
                split at hb
                · injection hb with hb
                  rw [← hb]
                  exact hq1
                · have hrest : QuotaInv P
                      (forbid_mark (restore_from_snapshot (take_snapshot s1) r1.2) p) := by
                    rw [restore_take_snapshot]
                    exact quotaInv_forbid_mark h1
                  split at hb
                  · cases hb
                  · rename_i r2 hb2
                    have hq2 : QuotaInv P r2.2 := ih _ r2 hrest hb2
                    split at hb
                    · injection hb with hb
                      rw [← hb]
                      exact hq2
                    · injection hb with hb
                      rw [← hb]
                      show QuotaInv P
                        (restore_from_snapshot (take_snapshot s1) (unforbid_mark r2.2 p))
                      rw [restore_take_snapshot]
                      exact h1

theorem backtrack_true_complete {P : Inst} :
    ∀ (fuel : Nat) (s : SolverState) (res : Bool × SolverState),
      backtrack P fuel s = some res → res.1 = true → is_complete P res.2 = true := by
  intro fuel
  induction fuel with
  | zero =>
    intro s res hb ht
    rw [backtrack] at hb
    injection hb with hb
    rw [← hb] at ht
    cases ht
  | succ fuel ih =>
    intro s res hb ht
    rw [backtrack] at hb
    split at hb
    · injection hb with hb
      rw [← hb] at ht
      cases ht
    · rename_i s1 hpr
      split at hb
      · rename_i hcomp
        injection hb with hb
        rw [← hb]
        exact hcomp
      · split at hb
        · injection hb with hb
          rw [← hb] at ht
          cases ht
        · split at hb
          · injection hb with hb
            rw [← hb] at ht
            cases ht
          · split at hb
            · cases hb
            · split at hb
              · cases hb
              · rename_i r1 hb1
                split at hb
                · rename_i hr1
                  injection hb with hb
                  rw [← hb]
                  exact ih _ r1 hb1 hr1
                · split at hb
                  · cases hb
                  · rename_i r2 hb2
                    split at hb
                    · rename_i hr2
                      injection hb with hb
                      rw [← hb]
                      exact ih _ r2 hb2 hr2
                    · injection hb with hb
                      rw [← hb] at ht
                      cases ht

/-- Whenever `solve` hands back a solution, it is the `solution` field of a
state satisfying the quota invariant that passed both `is_complete` and
`validate_no_adjacent`. -/
theorem solve_sol_state {P : Inst} {fuel : Nat} {S : Finset Cell}
    (h : solve P fuel = SolveResult.sol S) :
    ∃ s : SolverState, S = s.solution ∧ QuotaInv P s ∧
      is_complete P s = true ∧ validate_no_adjacent P s = true := by
  unfold solve at h
  split at h
  · cases h
  · rename_i s1 hpr
    have h0 : QuotaInv P s1 := by
      have := propagate_quota (P := P) (prop_fuel P) (init_state P) (quotaInv_init P)
      rw [hpr] at this
      exact this
    split at h
    · rename_i hcomp
      split at h
      · rename_i hval
        injection h with h
        exact ⟨s1, h.symm, h0, hcomp, hval⟩
      · cases h
    · split at h
      · cases h
      · split at h
        · cases h
        · rename_i r hbt
          split at h
          · rename_i hr
            split at h
            · rename_i hval
              injection h with h
              exact ⟨r.2, h.symm, backtrack_quota fuel s1 r h0 hbt,
                backtrack_true_complete fuel s1 r hbt hr, hval⟩
            · cases h
          · cases h

theorem is_complete_spec {P : Inst} {s : SolverState} (h : is_complete P s = true) :
    (∀ r < P.n, s.rows_needed r = 0) ∧ (∀ c < P.n, s.cols_needed c = 0) ∧
      (∀ rid ∈ labels P, s.regs_needed rid = 0) := by
  unfold is_complete at h
  rw [Bool.and_eq_true, Bool.and_eq_true] at h
  obtain ⟨⟨h1, h2⟩, h3⟩ := h
  rw [List.all_eq_true] at h1 h2 h3
  refine ⟨?_, ?_, ?_⟩
  · intro r hr
    exact of_decide_eq_true (h1 r (List.mem_range.2 hr))
  · intro c hc
    exact of_decide_eq_true (h2 c (List.mem_range.2 hc))
  · intro rid hrid
    exact of_decide_eq_true (h3 rid hrid)

theorem validate_no_adjacent_spec {P : Inst} {s : SolverState}
    (h : validate_no_adjacent P s = true) :
    ∀ p ∈ s.solution, ∀ q ∈ neighbors P.n p, q ∉ s.solution :=
  of_decide_eq_true h

theorem complete_counts {P : Inst} {s : SolverState} (hq : QuotaInv P s)
    (hc : is_complete P s = true) :
    (∀ r < P.n, (stars_in_row s r : Int) = P.k) ∧
      (∀ c < P.n, (stars_in_col s c : Int) = P.k) ∧
      (∀ rid ∈ labels P, (stars_in_region P s rid : Int) = P.k) := by
  obtain ⟨h1, h2, h3⟩ := is_complete_spec hc
  obtain ⟨_, hr, hcc, hreg⟩ := hq
  refine ⟨?_, ?_, ?_⟩
  · intro r hrn
    have := hr r hrn
    rw [h1 r hrn] at this
    omega
  · intro c hcn
    have := hcc c hcn
    rw [h2 c hcn] at this
    omega
  · intro rid hrid
    have := hreg rid hrid
    rw [h3 rid hrid] at this
    omega

theorem complete_card {P : Inst} {s : SolverState} (hq : QuotaInv P s)
    (hc : is_complete P s = true) : (s.solution.card : Int) = P.n * P.k := by
  have hrow := (complete_counts hq hc).1
  have hb := hq.1
  have hfib : s.solution.card =
      ∑ r ∈ Finset.range P.n, (s.solution.filter fun p => p.1 = r).card :=
    Finset.card_eq_sum_card_fiberwise fun x hx => Finset.mem_range.2 (hb x hx).1
  rw [hfib]
  push_cast
  have h' : ∀ r ∈ Finset.range P.n,
      ((Finset.filter (fun p => p.1 = r) s.solution).card : Int) = P.k := by
    intro r hr
    exact hrow r (Finset.mem_range.1 hr)
  rw [Finset.sum_congr rfl h', Finset.sum_const, Finset.card_range, nsmul_eq_mul]

theorem validate_chebyshev {P : Inst} {s : SolverState} (hq : QuotaInv P s)
    (hv : validate_no_adjacent P s = true) :
    ∀ p ∈ s.solution, ∀ q ∈ s.solution, p ≠ q →
      2 ≤ max ((p.1 : Int) - q.1).natAbs ((p.2 : Int) - q.2).natAbs := by
  intro p hp q hqmem hne
  by_contra hlt
  push_neg at hlt
  rw [Nat.max_lt] at hlt
  obtain ⟨hq1, hq2⟩ := hq.1 q hqmem
  have hqn : q ∈ neighbors P.n p := by
    rw [mem_neighbors]
    refine ⟨hq1, hq2, fun h => hne h.symm, ?_, ?_, ?_, ?_⟩ <;> omega
  exact validate_no_adjacent_spec hv p hp q hqn hqmem

/-- 1×1 board, k = 1, a single region labelled 0 (the spec's smallest
boundary scenario). -/
def P1 : Inst := { n := 1, k := 1, regions := fun _ _ => 0, unlabeled := -1 }

/-- 2×2 board, k = 2, fully unlabeled: every row demands two stars in two
adjacent cells. -/
def P2 : Inst := { n := 2, k := 2, regions := fun _ _ => -1, unlabeled := -1 }

/-- 2×2 board, k = 2, with a single region {(0,0)} of size 1 < k. -/
def P5s : Inst :=
  { n := 2, k := 2, regions := fun r c => if r = 0 ∧ c = 0 then 0 else -1,
    unlabeled := -1 }

/-- 4×4 board, k = 1, four 2×2 quadrant regions (the spec's quadrant
scenario). -/
def Pquad : Inst :=
  { n := 4, k := 1, regions := fun r c => (2 * (r / 2) + c / 2 : Int),
    unlabeled := -1 }

/-- 5×5 board, k = 2, region 7 = {(0,0),(0,2),(2,3)} and region 8 =
{(0,4),(2,1),(4,1)}, all other cells unlabeled. -/
def P9 : Inst :=
  { n := 5, k := 2,
    regions := fun r c =>
      if (r = 0 ∧ c = 0) ∨ (r = 0 ∧ c = 2) ∨ (r = 2 ∧ c = 3) then 7
      else if (r = 0 ∧ c = 4) ∨ (r = 2 ∧ c = 1) ∨ (r = 4 ∧ c = 1) then 8
      else -1,
    unlabeled := -1 }

/-- A consistent mid-solve state of `P9`: stars at (2,1), (2,3), (4,1) and
(4,3), placed one by one through the solver's own placement operation. -/
def s9 : SolverState :=
  (place_star_forced P9
    (place_star_forced P9
      (place_star_forced P9
        (place_star_forced P9 (init_state P9) 2 1).2 2 3).2 4 1).2 4 3).2

/-- Claim C1: whenever `ImprovedStarBattleSolver.solve` returns a placement
(a non-None result), that placement has exactly `k` stars in every row,
every column and every labelled region, no two placed stars are
king-adjacent (Chebyshev distance ≥ 2 for all pairs), and the set has
exactly `n·k` cells. -/
theorem solve_sound (P : Inst) (fuel : Nat) (S : Finset Cell)
    (h : solve P fuel = SolveResult.sol S) :
    (∀ r < P.n, ((S.filter fun p => p.1 = r).card : Int) = P.k) ∧
      (∀ c < P.n, ((S.filter fun p => p.2 = c).card : Int) = P.k) ∧
      (∀ rid ∈ labels P, ((S.filter fun p => P.regions p.1 p.2 = rid).card : Int) = P.k) ∧
      (∀ p ∈ S, ∀ q ∈ S, p ≠ q →
        2 ≤ max ((p.1 : Int) - q.1).natAbs ((p.2 : Int) - q.2).natAbs) ∧
      (S.card : Int) = P.n * P.k := by
  obtain ⟨s, hS, hq, hcomp, hval⟩ := solve_sol_state h
  subst hS
  obtain ⟨hrows, hcols, hregs⟩ := complete_counts hq hcomp
  exact ⟨hrows, hcols, hregs, validate_chebyshev hq hval, complete_card hq hcomp⟩

theorem solve_sound_witness :
    solve P1 1 = SolveResult.sol {(0, 0)} ∧
      (({((0 : Nat), (0 : Nat))} : Finset Cell).card : Int) = P1.n * P1.k :=
  ⟨by decide, (solve_sound P1 1 {(0, 0)} (by decide)).2.2.2.2⟩

/-- Claim C6: adjacency violations are handled asymmetrically —
`place_star_forced` on a cell with a king-adjacent star leaves the state
unchanged and returns `False`, while `place_star` on such a cell raises
`RuntimeError` (modelled `none`) instead of placing the star. -/
theorem adjacency_asymmetry (P : Inst) (s : SolverState) (r c : Nat)
    (h : ∃ q ∈ neighbors P.n (r, c), q ∈ s.solution) :
    place_star_forced P s r c = (false, s) ∧ place_star P s r c = none := by
  obtain ⟨q, hq, hqs⟩ := h
  have hany : ((neighbors P.n (r, c)).any fun q => decide (q ∈ s.solution)) = true :=
    List.any_eq_true.2 ⟨q, hq, decide_eq_true hqs⟩
  constructor
  · unfold place_star_forced
    rw [if_pos hany]
  · unfold place_star
    rw [if_pos hany]

theorem adjacency_asymmetry_witness :
    place_star_forced P2 (place_star_forced P2 (init_state P2) 0 0).2 0 1 =
        (false, (place_star_forced P2 (init_state P2) 0 0).2) ∧
      place_star P2 (place_star_forced P2 (init_state P2) 0 0).2 0 1 = none :=
  adjacency_asymmetry P2 (place_star_forced P2 (init_state P2) 0 0).2 0 1
    ⟨(0, 0), by decide, by decide⟩

/-- Claim C7: restoring a snapshot taken from a state returns every tracked
field (the placed-star set, the three quota tables, and the forbidden
counts) — and hence the whole state — to equality with its value at the
moment the snapshot was taken, whatever mutated state is being
overwritten. -/
theorem snapshot_roundtrip (s t : SolverState) :
    restore_from_snapshot (take_snapshot s) t = s ∧
      (restore_from_snapshot (take_snapshot s) t).solution = s.solution ∧
      (restore_from_snapshot (take_snapshot s) t).rows_needed = s.rows_needed ∧
      (restore_from_snapshot (take_snapshot s) t).cols_needed = s.cols_needed ∧
      (restore_from_snapshot (take_snapshot s) t).regs_needed = s.regs_needed ∧
      (restore_from_snapshot (take_snapshot s) t).forbidden_counts = s.forbidden_counts :=
  ⟨rfl, rfl, rfl, rfl, rfl, rfl⟩

/-- Claim C8: `select_next_cell` returns `None` exactly when no board cell
is available; otherwise it returns an available cell minimising `choices`
(row + column + region availability, the region term 0 for an unlabeled
cell), ties broken by maximising `constraints`. -/
theorem select_spec (P : Inst) (s : SolverState) :
    (select_next_cell P s = none ↔
      ∀ p : Cell, in_board P p → can_place_star P s p.1 p.2 = false) ∧
      (∀ p : Cell, select_next_cell P s = some p →
        can_place_star P s p.1 p.2 = true ∧ in_board P p ∧
          ∀ q : Cell, in_board P q → can_place_star P s q.1 q.2 = true →
            choices_of P s p ≤ choices_of P s q ∧
              (choices_of P s q = choices_of P s p →
                constraints_of P s q ≤ constraints_of P s p)) ∧
      (∀ p : Cell, P.regions p.1 p.2 = P.unlabeled →
        choices_of P s p =
          ((List.range P.n).filter fun cc => can_place_star P s p.1 cc).length +
            ((List.range P.n).filter fun rr => can_place_star P s rr p.2).length) := by
  refine ⟨?_, ?_, ?_⟩
  · rw [select_next_cell_none]
    constructor
    · intro h p hp
      exact h p (mem_allCells.2 hp)
    · intro h p hp
      exact h p (mem_allCells.1 hp)
  · intro p hp
    obtain ⟨h1, h2, h3⟩ := select_next_cell_some hp
    exact ⟨h1, mem_allCells.1 h2, fun q hq hcq => h3 q (mem_allCells.2 hq) hcq⟩
  · intro p hpu
    unfold choices_of
    rw [if_neg (not_not_intro hpu), Nat.add_zero]

theorem select_spec_witness :
    can_place_star P1 (init_state P1) 0 0 = true :=
  ((select_spec P1 (init_state P1)).2.1 (0, 0) (by decide)).1

/-- Claim C3: the quota bookkeeping invariant
`needed + already_placed = k` (for every row, column and labelled region)
holds at the initial state and is preserved by every mutating operation of
propagation and search: `place_star_forced`, `place_star`, the branch-B
forbid mark and its undo, snapshot restore, whole propagation runs and
whole backtracking runs — hence at every state the solver reaches. -/
theorem quota_invariant_everywhere (P : Inst) :
    QuotaInv P (init_state P) ∧
      (∀ s r c, QuotaInv P s → (r, c) ∉ s.solution → r < P.n → c < P.n →
        QuotaInv P (place_star_forced P s r c).2) ∧
      (∀ s r c res, QuotaInv P s → (r, c) ∉ s.solution → r < P.n → c < P.n →
        place_star P s r c = some res → QuotaInv P res.2) ∧
      (∀ s p, QuotaInv P s →
        QuotaInv P (forbid_mark s p) ∧ QuotaInv P (unforbid_mark s p)) ∧
      (∀ s t, QuotaInv P s → QuotaInv P (restore_from_snapshot (take_snapshot s) t)) ∧
      (∀ fuel s, QuotaInv P s → QuotaInv P (propagate_constraints P fuel s).2) ∧
      (∀ fuel s res, QuotaInv P s → backtrack P fuel s = some res →
        QuotaInv P res.2) := by
  refine ⟨quotaInv_init P, ?_, ?_, ?_, ?_, ?_, ?_⟩
  · intro s r c h hmem hr hc
    unfold place_star_forced
    split_ifs with hadj
    · exact h
    · exact quotaInv_star_placed h hmem hr hc
  · intro s r c res h hmem hr hc hps
    unfold place_star at hps
    split at hps
    · cases hps
    · injection hps with hps
      rw [← hps]
      exact quotaInv_star_placed h hmem hr hc
  · intro s p h
    exact ⟨quotaInv_forbid_mark h, quotaInv_unforbid_mark h⟩
  · intro s t h
    rw [restore_take_snapshot]
    exact h
  · intro fuel s h
    exact propagate_quota fuel s h
  · intro fuel s res h hb
    exact backtrack_quota fuel s res h hb

theorem quota_invariant_everywhere_witness :
    QuotaInv P1 (init_state P1) ∧
      QuotaInv P2 (place_star_forced P2 (init_state P2) 0 0).2 :=
  ⟨(quota_invariant_everywhere P1).1,
    (quota_invariant_everywhere P2).2.1 (init_state P2) 0 0 (by decide) (by decide)
      (by decide) (by decide)⟩

/-- Whether part of a pass hit the `return False` exit. -/
def pass_failed : PassResult → Bool
  | .failed _ => true
  | .passed _ _ => false

/-- The `changed` flag carried by a completed part of a pass. -/
def pass_changed : PassResult → Bool
  | .failed _ => false
  | .passed _ ch => ch

theorem place_star_forced_fst_false {P : Inst} {s : SolverState} {r c : Nat}
    (h : (place_star_forced P s r c).1 = false) :
    (place_star_forced P s r c).2 = s := by
  unfold place_star_forced at h ⊢
  by_cases hadj : ((neighbors P.n (r, c)).any fun q => decide (q ∈ s.solution)) = true
  · rw [if_pos hadj]
  · rw [if_neg hadj] at h
    cases h

theorem forced_all_no_change (P : Inst) (l : List Cell) :
    ∀ (s : SolverState) (ch : Bool), (forced_all P l s ch).2 = false →
      ch = false ∧ (forced_all P l s ch).1 = s := by
  induction l with
  | nil =>
    intro s ch h
    exact ⟨h, rfl⟩
  | cons p l ih =>
    intro s ch h
    rw [forced_all_cons] at h ⊢
    obtain ⟨hor, heq⟩ := ih _ _ h
    have hch : ch = false := by
      cases ch
      · rfl
      · rw [Bool.true_or] at hor
        cases hor
    have hok : (place_star_forced P s p.1 p.2).1 = false := by
      cases hpk : (place_star_forced P s p.1 p.2).1
      · rfl
      · rw [hpk, Bool.or_true] at hor
        cases hor
    refine ⟨hch, ?_⟩
    rw [heq, place_star_forced_fst_false hok]

theorem process_unit_no_change {P : Inst} {s s' : SolverState} {u : ConstraintUnit}
    (h : process_unit P s u = PassResult.passed s' false) : s' = s := by
  unfold process_unit at h
  by_cases h1 : 0 < unit_need s u
  · rw [if_pos h1] at h
    by_cases h2 : ((avail_cells P s u).length : Int) = unit_need s u
    · rw [if_pos h2] at h
      replace h : PassResult.passed (forced_all P (avail_cells P s u) s false).1
          (forced_all P (avail_cells P s u) s false).2 = PassResult.passed s' false := h
      injection h with h4 h5
      rw [← h4]
      exact (forced_all_no_change P (avail_cells P s u) s false h5).2
    · rw [if_neg h2] at h
      by_cases h3 : ((avail_cells P s u).length : Int) < unit_need s u
      · rw [if_pos h3] at h
        cases h
      · rw [if_neg h3] at h
        injection h with h4 h5
        exact h4.symm
  · rw [if_neg h1] at h
    injection h with h4 h5
    exact h4.symm

theorem run_units_changed_true {P : Inst} :
    ∀ (l : List ConstraintUnit) (s s' : SolverState) (ch' : Bool),
      run_units P l s true = PassResult.passed s' ch' → ch' = true := by
  intro l
  induction l with
  | nil =>
    intro s s' ch' h
    injection h with _ h2
    exact h2.symm
  | cons u l ih =>
    intro s s' ch' h
    rw [run_units] at h
    split at h
    · cases h
    · rw [Bool.true_or] at h
      exact ih _ _ _ h

theorem run_units_no_change {P : Inst} :
    ∀ (l : List ConstraintUnit) (s s' : SolverState),
      run_units P l s false = PassResult.passed s' false → s' = s := by
  intro l
  induction l with
  | nil =>
    intro s s' h
    injection h with h1 _
    exact h1.symm
  | cons u l ih =>
    intro s s' h
    rw [run_units] at h
    split at h
    · cases h
    · rename_i s1 ch1 heq
      cases ch1 with
      | true =>
        rw [Bool.or_true] at h
        cases run_units_changed_true l s1 s' false h
      | false =>
        rw [Bool.false_or] at h
        rw [ih s1 s' h]
        exact process_unit_no_change heq

theorem forced_all_cover (P : Inst) (l : List Cell) :
    ∀ (s : SolverState) (ch : Bool), ∀ p ∈ l,
      p ∈ (forced_all P l s ch).1.solution ∨
        ∃ q ∈ neighbors P.n p, q ∈ (forced_all P l s ch).1.solution := by
  induction l with
  | nil =>
    intro s ch p hp
    cases hp
  | cons a l ih =>
    intro s ch p hp
    rw [forced_all_cons]
    rcases List.mem_cons.1 hp with rfl | hp'
    · by_cases hadj :
        ((neighbors P.n (p.1, p.2)).any fun q => decide (q ∈ s.solution)) = true
      · right
        rw [List.any_eq_true] at hadj
        obtain ⟨q, hq, hq'⟩ := hadj
        refine ⟨q, hq, ?_⟩
        exact forced_all_solution_mono P l _ _
          (place_star_forced_solution_mono P s p.1 p.2 (of_decide_eq_true hq'))
      · left
        have hmem : p ∈ (place_star_forced P s p.1 p.2).2.solution := by
          unfold place_star_forced
          rw [if_neg hadj]
          exact Finset.mem_insert_self _ _
        exact forced_all_solution_mono P l _ _ hmem
    · exact ih _ _ p hp'

/-- Claim C2 (amended): for a unit with positive remaining need examined by a
propagation pass — if the available-cell count is below the need the pass
fails immediately; if it equals the need the pass runs a forced placement on
every available cell, so each of them either receives a star or is skipped
because a star placed earlier in the same batch is king-adjacent to it (the
claim's "places a star in every one of those cells" fails in the latter
case); if it exceeds the need the unit changes nothing; and a full pass with
no change makes the loop return true. -/
theorem propagation_unit_rule (P : Inst) (s : SolverState) (u : ConstraintUnit)
    (hn : 0 < unit_need s u) :
    (((avail_cells P s u).length : Int) < unit_need s u →
      process_unit P s u = PassResult.failed s) ∧
      (((avail_cells P s u).length : Int) = unit_need s u →
        process_unit P s u =
          PassResult.passed (forced_all P (avail_cells P s u) s false).1
            (forced_all P (avail_cells P s u) s false).2 ∧
          ∀ p ∈ avail_cells P s u,
            p ∈ (pass_state (process_unit P s u)).solution ∨
              ∃ q ∈ neighbors P.n p,
                q ∈ (pass_state (process_unit P s u)).solution) ∧
      (unit_need s u < ((avail_cells P s u).length : Int) →
        process_unit P s u = PassResult.passed s false) ∧
      (∀ (fuel : Nat) (t : SolverState),
        pass_failed (run_units P (all_units P) t false) = false →
        pass_changed (run_units P (all_units P) t false) = false →
        propagate_constraints P (fuel + 1) t = (true, t)) := by
  refine ⟨?_, ?_, ?_, ?_⟩
  · intro hlt
    unfold process_unit
    rw [if_pos hn, if_neg (by omega), if_pos hlt]
  · intro hlen
    have hpu : process_unit P s u =
        PassResult.passed (forced_all P (avail_cells P s u) s false).1
          (forced_all P (avail_cells P s u) s false).2 := by
      unfold process_unit
      rw [if_pos hn, if_pos hlen]
    refine ⟨hpu, ?_⟩
    intro p hp
    rw [hpu]
    exact forced_all_cover P (avail_cells P s u) s false p hp
  · intro hgt
    unfold process_unit
    rw [if_pos hn, if_neg (by omega), if_neg (by omega)]
  · intro fuel t hfail hchange
    cases hru : run_units P (all_units P) t false with
    | failed t' =>
      rw [hru] at hfail
      cases hfail
    | passed t' ch =>
      rw [hru] at hchange
      have hch : ch = false := hchange
      subst hch
      have ht' : t' = t := run_units_no_change (all_units P) t t' hru
      subst ht'
      rw [propagate_constraints, hru]
      rfl

/-- Claim C2 as stated is refuted on the 2×2 all-unlabeled board with
k = 2: row 0 has need 2 and exactly 2 available cells, yet after the unit
is processed the second cell (0,1) holds no star (it was skipped as
adjacent to the star just placed at (0,0)), and no failure was signalled. -/
theorem propagation_unit_rule_counterexample :
    0 < unit_need (init_state P2) (ConstraintUnit.row 0) ∧
      ((avail_cells P2 (init_state P2) (ConstraintUnit.row 0)).length : Int) =
        unit_need (init_state P2) (ConstraintUnit.row 0) ∧
      (0, 1) ∈ avail_cells P2 (init_state P2) (ConstraintUnit.row 0) ∧
      (0, 1) ∉
        (pass_state (process_unit P2 (init_state P2) (ConstraintUnit.row 0))).solution ∧
      pass_failed (process_unit P2 (init_state P2) (ConstraintUnit.row 0)) = false :=
  ⟨by decide, by decide, by decide, by decide, by decide⟩

/-- The state left by processing row 0 of `P2` from the initial state. -/
def c2_state : SolverState :=
  pass_state (process_unit P2 (init_state P2) (ConstraintUnit.row 0))

/-- The fixpoint state of `P1` after its initial propagation (a solved
board; a further pass changes nothing). -/
def s1done : SolverState :=
  (propagate_constraints P1 (prop_fuel P1) (init_state P1)).2

theorem propagation_unit_rule_witness :
    pass_failed (process_unit P2 c2_state (ConstraintUnit.row 1)) = true ∧
      process_unit Pquad (init_state Pquad) (ConstraintUnit.row 0) =
        PassResult.passed (init_state Pquad) false ∧
      propagate_constraints P1 1 s1done = (true, s1done) := by
  refine ⟨?_, ?_, ?_⟩
  · rw [(propagation_unit_rule P2 c2_state (ConstraintUnit.row 1) (by decide)).1
      (by decide)]
    rfl
  · exact (propagation_unit_rule Pquad (init_state Pquad) (ConstraintUnit.row 0)
      (by decide)).2.2.1 (by decide)
  · exact (propagation_unit_rule P1 (init_state P1) (ConstraintUnit.row 0)
      (by decide)).2.2.2 0 s1done (by decide) (by decide)

theorem bump_all_cons (f : Cell → Int) (a : Cell) (l : List Cell) :
    bump_all f (a :: l) = bump_all (Function.update f a (f a + 1)) l := rfl

theorem bump_all_apply :
    ∀ (l : List Cell), l.Nodup → ∀ (f : Cell → Int) (x : Cell),
      bump_all f l x = f x + (if x ∈ l then 1 else 0) := by
  intro l
  induction l with
  | nil =>
    intro _ f x
    simp [bump_all]
  | cons a l ih =>
    intro hnd f x
    rw [bump_all_cons, ih hnd.of_cons, Function.update_apply]
    by_cases hxa : x = a
    · subst hxa
      rw [if_pos rfl, if_neg (List.nodup_cons.1 hnd).1,
        if_pos (List.mem_cons_self x l)]
      omega
    · rw [if_neg hxa]
      by_cases hxl : x ∈ l
      · rw [if_pos hxl, if_pos (List.mem_cons_of_mem a hxl)]
      · rw [if_neg hxl, if_neg fun hc => (List.mem_cons.1 hc).elim hxa hxl]

theorem filter_insert_not_mem {p : Cell} {S : Finset Cell} (l : List Cell)
    (hpl : p ∉ l) :
    (l.filter fun q => decide (q ∈ insert p S)) =
      l.filter fun q => decide (q ∈ S) := by
  refine List.filter_congr ?_
  intro x hx
  have hxp : x ≠ p := fun h => hpl (h ▸ hx)
  exact decide_eq_decide.2 (by rw [Finset.mem_insert]; exact or_iff_right hxp)

theorem filter_length_insert {p : Cell} {S : Finset Cell} (hp : p ∉ S) :
    ∀ (l : List Cell), l.Nodup →
      (l.filter fun q => decide (q ∈ insert p S)).length =
        (l.filter fun q => decide (q ∈ S)).length + (if p ∈ l then 1 else 0) := by
  intro l
  induction l with
  | nil =>
    intro _
    simp
  | cons a l ih =>
    intro hnd
    rw [List.filter_cons, List.filter_cons]
    by_cases hap : a = p
    · subst hap
      rw [if_pos (by exact decide_eq_true (Finset.mem_insert_self a S)),
        if_neg (by simp [hp]), filter_insert_not_mem l (List.nodup_cons.1 hnd).1,
        if_pos (List.mem_cons_self a l)]
      simp
    · have hcond : (decide (a ∈ insert p S)) = (decide (a ∈ S)) :=
        decide_eq_decide.2 (by
          rw [Finset.mem_insert]
          exact or_iff_right fun h => hap h)
      rw [hcond]
      have hiff : (if p ∈ a :: l then (1 : Nat) else 0) = if p ∈ l then 1 else 0 := by
        by_cases hpl : p ∈ l
        · rw [if_pos hpl, if_pos (List.mem_cons_of_mem a hpl)]
        · rw [if_neg hpl,
            if_neg fun hc => (List.mem_cons.1 hc).elim (fun h => hap h.symm) hpl]
      rw [hiff]
      by_cases haS : a ∈ S
      · rw [if_pos (decide_eq_true haS), if_pos (decide_eq_true haS)]
        simp only [List.length_cons]
        rw [ih hnd.of_cons]
        omega
      · rw [if_neg (by simp [haS]), if_neg (by simp [haS])]
        exact ih hnd.of_cons

theorem snc_star_placed {P : Inst} {s : SolverState} {r c : Nat}
    (hp : (r, c) ∉ s.solution) {x : Cell} (hx1 : x.1 < P.n) (hx2 : x.2 < P.n)
    (hr : r < P.n) (hc : c < P.n) :
    star_nbr_count P (star_placed_state P s r c) x =
      star_nbr_count P s x + (if x ∈ neighbors P.n (r, c) then 1 else 0) := by
  unfold star_nbr_count star_placed_state
  rw [filter_length_insert hp (neighbors P.n x) (nodup_neighbors P.n x)]
  congr 1
  by_cases hm : (r, c) ∈ neighbors P.n x
  · rw [if_pos hm, if_pos ((neighbors_symm hx1 hx2 hr hc).1 hm)]
  · rw [if_neg hm, if_neg fun hc' => hm ((neighbors_symm hr hc hx1 hx2).1 hc')]

theorem minv_star_placed {P : Inst} {s : SolverState} {m : Cell → Int} {r c : Nat}
    (h : MarkedForbiddenInv P s m) (hp : (r, c) ∉ s.solution)
    (hr : r < P.n) (hc : c < P.n) :
    MarkedForbiddenInv P (star_placed_state P s r c) m := by
  intro a ha b hb
  show bump_all s.forbidden_counts (neighbors P.n (r, c)) (a, b) = _
  rw [bump_all_apply (neighbors P.n (r, c)) (nodup_neighbors _ _) _ (a, b),
    h a ha b hb, snc_star_placed hp ha hb hr hc]
  by_cases hm : ((a : Nat), (b : Nat)) ∈ neighbors P.n (r, c)
  · rw [if_pos hm, if_pos hm]
    push_cast
    ring
  · rw [if_neg hm, if_neg hm]
    push_cast
    ring

/-- Claim C4 (amended): `forbidden_count[cell]` equals the number of
star-holding neighbours of the cell plus the number of branch-B forbid marks
currently active on that cell.  The unmarked equality holds initially and is
preserved by star placement and snapshot restore, but the branch-B mark
raises the count by one with no star placed, so inside a branch-B subtree
the claim's plain equality fails on the branch cell. -/
theorem forbidden_counts_marked (P : Inst) :
    ForbiddenInv P (init_state P) ∧
      (∀ s, ForbiddenInv P s ↔ MarkedForbiddenInv P s fun _ => 0) ∧
      (∀ s m r c, MarkedForbiddenInv P s m → (r, c) ∉ s.solution →
        r < P.n → c < P.n → MarkedForbiddenInv P (star_placed_state P s r c) m) ∧
      (∀ s m p, MarkedForbiddenInv P s m →
        MarkedForbiddenInv P (forbid_mark s p) (Function.update m p (m p + 1)) ∧
          MarkedForbiddenInv P (unforbid_mark s p) (Function.update m p (m p - 1))) ∧
      (∀ s m t, MarkedForbiddenInv P s m →
        MarkedForbiddenInv P (restore_from_snapshot (take_snapshot s) t) m) := by
  refine ⟨?_, ?_, ?_, ?_, ?_⟩
  · intro a _ b _
    simp [init_state, star_nbr_count]
  · intro s
    constructor
    · intro h a ha b hb
      have hpt := h a ha b hb
      show s.forbidden_counts (a, b) = (star_nbr_count P s (a, b) : Int) + 0
      omega
    · intro h a ha b hb
      have hpt := h a ha b hb
      replace hpt : s.forbidden_counts (a, b) =
          (star_nbr_count P s (a, b) : Int) + 0 := hpt
      omega
  · intro s m r c h hp hr hc
    exact minv_star_placed h hp hr hc
  · intro s m p h
    constructor
    · intro a ha b hb
      have hh := h a ha b hb
      have hsnc : star_nbr_count P (forbid_mark s p) (a, b) =
          star_nbr_count P s (a, b) := rfl
      rw [hsnc]
      show Function.update s.forbidden_counts p (s.forbidden_counts p + 1) (a, b) =
        (star_nbr_count P s (a, b) : Int) + Function.update m p (m p + 1) (a, b)
      rw [Function.update_apply, Function.update_apply]
      by_cases hpq : ((a : Nat), (b : Nat)) = p
      · rw [if_pos hpq, if_pos hpq, ← hpq, hh]
        omega
      · rw [if_neg hpq, if_neg hpq, hh]
    · intro a ha b hb
      have hh := h a ha b hb
      have hsnc : star_nbr_count P (unforbid_mark s p) (a, b) =
          star_nbr_count P s (a, b) := rfl
      rw [hsnc]
      show Function.update s.forbidden_counts p (s.forbidden_counts p - 1) (a, b) =
        (star_nbr_count P s (a, b) : Int) + Function.update m p (m p - 1) (a, b)
      rw [Function.update_apply, Function.update_apply]
      by_cases hpq : ((a : Nat), (b : Nat)) = p
      · rw [if_pos hpq, if_pos hpq, ← hpq, hh]
        omega
      · rw [if_neg hpq, if_neg hpq, hh]
  · intro s m t h
    rw [restore_take_snapshot]
    exact h

/-- Claim C4 as stated is refuted at the branch-B mutation: on the 1×1
board, the initial state satisfies the
`forbidden_count = starred-neighbour-count` invariant, but after the
branch-B forbid mark on (0,0) (the exact mutation backtrack performs when
trying "no star here") the invariant is false, although no star was placed. -/
theorem forbidden_counts_marked_counterexample :
    ForbiddenInv P1 (init_state P1) ∧
      ¬ ForbiddenInv P1 (forbid_mark (init_state P1) (0, 0)) :=
  ⟨by decide, by decide⟩

theorem forbidden_counts_marked_witness :
    MarkedForbiddenInv P1 (forbid_mark (init_state P1) (0, 0))
      (Function.update (fun _ => (0 : Int)) ((0 : Nat), (0 : Nat)) 1) :=
  ((forbidden_counts_marked P1).2.2.2.1 (init_state P1) (fun _ => 0) (0, 0)
    (by decide)).1

theorem nonneg_star_placed {P : Inst} {s : SolverState} {r c : Nat}
    (h : NonNegQuotas P s) (hc : can_place_star P s r c = true) :
    NonNegQuotas P (star_placed_state P s r c) := by
  obtain ⟨_, _, hrow, hcol, hregpos, _⟩ := can_place_star_iff.1 hc
  obtain ⟨h1, h2, h3⟩ := h
  refine ⟨?_, ?_, ?_⟩
  · intro i hi
    show 0 ≤ Function.update s.rows_needed r (s.rows_needed r - 1) i
    rw [Function.update_apply]
    split_ifs with e
    · omega
    · exact h1 i hi
  · intro i hi
    show 0 ≤ Function.update s.cols_needed c (s.cols_needed c - 1) i
    rw [Function.update_apply]
    split_ifs with e
    · omega
    · exact h2 i hi
  · intro rid hrid
    show 0 ≤ (if P.regions r c ≠ P.unlabeled then
      Function.update s.regs_needed (P.regions r c)
        (s.regs_needed (P.regions r c) - 1) else s.regs_needed) rid
    split_ifs with e1
    · rw [Function.update_apply]
      split_ifs with e2
      · rcases hregpos with he | he
        · exact absurd he e1
        · omega
      · exact h3 rid hrid
    · exact h3 rid hrid

/-- Claim C9 (amended): every tracked quota entry is nonnegative initially
(for k ≥ 0) and stays nonnegative under every single placement performed on
a cell satisfying `can_place_star` at that moment (in particular under
every search placement), as well as under forbid marks and snapshot
restores.  The batched forced placements of a propagation pass, however,
re-check only adjacency, so they can drive a quota of a unit shared by two
batch cells below zero (see the counterexample). -/
theorem nonneg_quotas_single_placements (P : Inst) (hk : 0 ≤ P.k) :
    NonNegQuotas P (init_state P) ∧
      (∀ s r c, NonNegQuotas P s → can_place_star P s r c = true →
        NonNegQuotas P (place_star_forced P s r c).2 ∧
          ∀ res, place_star P s r c = some res → NonNegQuotas P res.2) ∧
      (∀ s p, NonNegQuotas P s →
        NonNegQuotas P (forbid_mark s p) ∧ NonNegQuotas P (unforbid_mark s p)) ∧
      (∀ s t, NonNegQuotas P s →
        NonNegQuotas P (restore_from_snapshot (take_snapshot s) t)) := by
  refine ⟨?_, ?_, ?_, ?_⟩
  · refine ⟨fun r _ => hk, fun c _ => hk, fun rid hrid => ?_⟩
    show 0 ≤ if rid ∈ labels P then P.k else 0
    rw [if_pos hrid]
    exact hk
  · intro s r c h hc
    constructor
    · unfold place_star_forced
      split_ifs with hadj
      · exact h
      · exact nonneg_star_placed h hc
    · intro res hres
      unfold place_star at hres
      split at hres
      · cases hres
      · injection hres with hres
        rw [← hres]
        exact nonneg_star_placed h hc
  · intro s p h
    exact ⟨h, h⟩
  · intro s t h
    rw [restore_take_snapshot]
    exact h

/-- Claim C9 as stated is refuted at `P9`: the state `s9` — reached from
the initial state by four legal placements — satisfies the quota invariant,
all quotas nonnegative and correct forbidden counts; processing row 0 (need
2, exactly 2 available cells (0,0) and (0,2), both in region 7 whose quota
is 1) force-places both cells, driving `regs_needed[7]` to −1. -/
theorem nonneg_quotas_counterexample :
    QuotaInv P9 s9 ∧ NonNegQuotas P9 s9 ∧ ForbiddenInv P9 s9 ∧
      0 < unit_need s9 (ConstraintUnit.row 0) ∧
      ((avail_cells P9 s9 (ConstraintUnit.row 0)).length : Int) =
        unit_need s9 (ConstraintUnit.row 0) ∧
      (pass_state (process_unit P9 s9 (ConstraintUnit.row 0))).regs_needed 7 = -1 :=
  ⟨by decide, by decide, by decide, by decide, by decide, by decide⟩

theorem nonneg_quotas_witness :
    NonNegQuotas P1 (place_star_forced P1 (init_state P1) 0 0).2 :=
  ((nonneg_quotas_single_placements P1 (by decide)).2.1 (init_state P1) 0 0
    (by decide) (by decide)).1

theorem region_avail_stars_le {P : Inst} {s : SolverState} (hq : QuotaInv P s)
    (rid : Int) :
    (avail_cells P s (ConstraintUnit.region rid)).length +
        stars_in_region P s rid ≤ (region_cells P rid).length := by
  classical
  set A := (avail_cells P s (ConstraintUnit.region rid)).toFinset with hA
  set B := s.solution.filter fun p => P.regions p.1 p.2 = rid with hB
  have hAlen : A.card = (avail_cells P s (ConstraintUnit.region rid)).length :=
    List.toFinset_card_of_nodup (nodup_avail_cells P s (ConstraintUnit.region rid))
  have hdisj : Disjoint A B := by
    rw [Finset.disjoint_left]
    intro p hpA hpB
    have hpc := (mem_avail_cells.1 (List.mem_toFinset.1 hpA)).2
    have hps := (Finset.mem_filter.1 hpB).1
    exact (can_place_star_iff.1 hpc).1 hps
  have hsub : A ∪ B ⊆ (region_cells P rid).toFinset := by
    intro p hp
    rcases Finset.mem_union.1 hp with hp' | hp'
    · exact List.mem_toFinset.2 (mem_avail_cells.1 (List.mem_toFinset.1 hp')).1
    · obtain ⟨hps, hpl⟩ := Finset.mem_filter.1 hp'
      exact List.mem_toFinset.2
        (mem_region_cells.2 ⟨mem_allCells.2 (hq.1 p hps), hpl⟩)
  calc (avail_cells P s (ConstraintUnit.region rid)).length +
        stars_in_region P s rid
      = A.card + B.card := by rw [hAlen]; rfl
    _ = (A ∪ B).card := (Finset.card_union_of_disjoint hdisj).symm
    _ ≤ (region_cells P rid).toFinset.card := Finset.card_le_card hsub
    _ ≤ (region_cells P rid).length := List.toFinset_card_le _

theorem process_unit_region_small {P : Inst} {rid : Int} (hrid : rid ∈ labels P)
    (hsmall : ((region_cells P rid).length : Int) < P.k) {s : SolverState}
    (hq : QuotaInv P s) :
    process_unit P s (ConstraintUnit.region rid) = PassResult.failed s := by
  have hreg := hq.2.2.2 rid hrid
  have hbound := region_avail_stars_le hq rid
  have hneed : 0 < unit_need s (ConstraintUnit.region rid) := by
    show 0 < s.regs_needed rid
    omega
  have hlt : ((avail_cells P s (ConstraintUnit.region rid)).length : Int) <
      unit_need s (ConstraintUnit.region rid) := by
    show _ < s.regs_needed rid
    omega
  unfold process_unit
  rw [if_pos hneed, if_neg (by omega), if_pos hlt]

theorem run_units_region_small {P : Inst} {rid : Int} (hrid : rid ∈ labels P)
    (hsmall : ((region_cells P rid).length : Int) < P.k) :
    ∀ (l : List ConstraintUnit) (s : SolverState) (ch : Bool),
      QuotaInv P s → (∀ u ∈ l, unit_wf P u) → ConstraintUnit.region rid ∈ l →
      pass_failed (run_units P l s ch) = true := by
  intro l
  induction l with
  | nil =>
    intro s ch _ _ hmem
    cases hmem
  | cons u l ih =>
    intro s ch hq hwf hmem
    rw [run_units]
    cases hpu : process_unit P s u with
    | failed s' =>
      rfl
    | passed s' ch' =>
      show pass_failed (run_units P l s' (ch || ch')) = true
      rcases List.mem_cons.1 hmem with rfl | hmem'
      · rw [process_unit_region_small hrid hsmall hq] at hpu
        cases hpu
      · refine ih s' _ ?_ (fun v hv => hwf v (List.mem_cons_of_mem _ hv)) hmem'
        have hq' := process_unit_quota hq (hwf u (List.mem_cons_self u l))
        rw [hpu] at hq'
        exact hq'

theorem region_mem_all_units {P : Inst} {rid : Int} (h : rid ∈ labels P) :
    ConstraintUnit.region rid ∈ all_units P :=
  List.mem_append.2 (Or.inr (List.mem_map.2 ⟨rid, h, rfl⟩))

theorem propagate_init_small {P : Inst} {rid : Int} (hrid : rid ∈ labels P)
    (hsmall : ((region_cells P rid).length : Int) < P.k) :
    (propagate_constraints P (prop_fuel P) (init_state P)).1 = false := by
  have hfail := run_units_region_small hrid hsmall (all_units P) (init_state P)
    false (quotaInv_init P) (all_units_wf P) (region_mem_all_units hrid)
  have hfuel : prop_fuel P = (P.n * P.n + 1) + 1 := rfl
  rw [hfuel, propagate_constraints]
  cases hru : run_units P (all_units P) (init_state P) false with
  | failed s' =>
    rfl
  | passed s' ch =>
    rw [hru] at hfail
    exact absurd hfail (by simp [pass_failed])

theorem solve_small_region {P : Inst} {rid : Int} {fuel : Nat}
    (hrid : rid ∈ labels P)
    (hsmall : ((region_cells P rid).length : Int) < P.k) :
    solve P fuel = SolveResult.noSolution := by
  unfold solve
  split
  · rfl
  · rename_i s1 hpr
    have hfalse := propagate_init_small hrid hsmall
    rw [hpr] at hfalse
    cases hfalse

/-- Claim C10: for every instance with a labelled region of fewer than `k`
member cells, the core `solve` (invoked directly, any timeout) returns
`None`: whenever a propagation pass examines that region from a
quota-consistent state it finds fewer available cells than its need and
fails, so the initial `propagate_constraints` call returns false before any
branching search begins. -/
theorem small_region_core_none (P : Inst) (fuel : Nat) (rid : Int)
    (hrid : rid ∈ labels P)
    (hsmall : ((region_cells P rid).length : Int) < P.k) :
    (∀ s, QuotaInv P s →
      process_unit P s (ConstraintUnit.region rid) = PassResult.failed s) ∧
      (propagate_constraints P (prop_fuel P) (init_state P)).1 = false ∧
      solve P fuel = SolveResult.noSolution :=
  ⟨fun _ hq => process_unit_region_small hrid hsmall hq,
    propagate_init_small hrid hsmall, solve_small_region hrid hsmall⟩

theorem small_region_core_none_witness :
    solve P5s 5 = SolveResult.noSolution :=
  (small_region_core_none P5s 5 0 (by decide) (by decide)).2.2

/-- Claim C5 as stated is refuted: the core solver does not surface a
too-small region as anything distinct from the ordinary "no solution"
outcome — on `P5s` (region 0 has 1 < k = 2 cells) it returns exactly the
same `noSolution` value that the ordinary unsatisfiable instance `P2`
produces. -/
theorem app_region_check_counterexample :
    solve P5s 5 = SolveResult.noSolution ∧ solve P2 5 = SolveResult.noSolution :=
  ⟨by decide, by decide⟩

/-- Claim C5 (amended): the region-size feasibility check lives in the
application layer, not the core: for an instance with a labelled region
(with a GUI-style label ≥ 0, `unlabeled = -1`) smaller than `k`,
`StarBattleApp.solve` rejects with the dedicated "Region too small" error
before the core is ever invoked, while the core itself reports only the
ordinary `None`. -/
theorem app_rejects_small_region (P : Inst) (fuel : Nat) (rid : Int)
    (_hunl : P.unlabeled = -1) (hrid : rid ∈ labels P) (hpos : 0 ≤ rid)
    (hsmall : ((region_cells P rid).length : Int) < P.k) :
    (∃ r' sz, app_solve P fuel = AppOutcome.errRegionTooSmall r' sz ∧
        (sz : Int) < P.k) ∧
      solve P fuel = SolveResult.noSolution := by
  constructor
  · have hcond : ¬(((allCells P).all fun p => decide (P.regions p.1 p.2 = -1)) = true) := by
      intro hall
      obtain ⟨p0, hp0mem, hp0lab, hne⟩ := mem_labels.1 hrid
      have h0 := of_decide_eq_true (List.all_eq_true.1 hall p0 hp0mem)
      rw [h0] at hp0lab
      omega
    cases hfs : first_small_region P with
    | none =>
      exfalso
      unfold first_small_region at hfs
      have hnone := List.findSome?_eq_none_iff.1 hfs rid hrid
      rw [if_pos hsmall] at hnone
      cases hnone
    | some rs =>
      have hfs' := hfs
      unfold first_small_region at hfs'
      obtain ⟨a, ha, hfa⟩ := List.exists_of_findSome?_eq_some hfs'
      by_cases hc : ((region_cells P a).length : Int) < P.k
      · rw [if_pos hc] at hfa
        injection hfa with hfa
        refine ⟨rs.1, rs.2, ?_, ?_⟩
        · unfold app_solve
          rw [if_neg hcond, hfs]
        · rw [← hfa]
          exact hc
      · rw [if_neg hc] at hfa
        cases hfa
  · exact solve_small_region hrid hsmall

theorem app_rejects_small_region_witness :
    (∃ r' sz, app_solve P5s 5 = AppOutcome.errRegionTooSmall r' sz ∧
        (sz : Int) < P5s.k) ∧
      solve P5s 5 = SolveResult.noSolution :=
  app_rejects_small_region P5s 5 0 (by decide) (by decide) (by decide) (by decide)

end StarBattle
